import Mathlib

/-!
# Verification of the grid A* pathfinder (`src/pathfinding.js`)

Shallow embedding of the grid model and the A* search of `PathfindingGrid`:
coordinates are integer pairs, the JS `Set` of wall keys is a `Finset`,
the JS `Map`s (`cameFrom`, `gScore`, `fScore`) are association lists with
JS `Map` semantics (insertion order kept, `set` replaces in place, `get`
returns an `Option`), and the unbounded `while` loop of `findPath` is a
fuel-indexed recursion run with a fuel that is proved sufficient.
-/

namespace Pathfinding

/-- A grid coordinate `(row, col)`.  JS numbers on this code path are
integers, and the neighbor offsets go below zero before the bounds check,
so we use `ℤ`. -/
abbrev Pos := ℤ × ℤ

/-- Manhattan distance, the value computed by `heuristic` in the source. -/
def mdist (a b : Pos) : ℕ := (a.1 - b.1).natAbs + (a.2 - b.2).natAbs

/-- The mutable fields of `PathfindingGrid` that the search reads:
dimensions, the wall set and the two endpoints.  (`grid`, `isDragging`
and `dragType` belong to the DOM/presentation layer and are not part of
the computational state.) -/
structure Model where
  rows : ℕ
  cols : ℕ
  walls : Finset Pos
  startPos : Pos
  endPos : Pos
deriving DecidableEq

/-- The bounds test of `getNeighbors`:
`newRow >= 0 && newRow < this.rows && newCol >= 0 && newCol < this.cols`. -/
def inB (m : Model) (p : Pos) : Prop :=
  0 ≤ p.1 ∧ p.1 < (m.rows : ℤ) ∧ 0 ≤ p.2 ∧ p.2 < (m.cols : ℤ)

instance (m : Model) (p : Pos) : Decidable (inB m p) := by
  unfold inB; infer_instance

/-- Source `isWall(row, col)`: membership of the key in the wall set. -/
def isWall (m : Model) (p : Pos) : Prop := p ∈ m.walls

instance (m : Model) (p : Pos) : Decidable (isWall m p) := by
  unfold isWall; infer_instance

/-- The direction list of `getNeighbors`: up, down, left, right. -/
def directions : List Pos := [(-1, 0), (1, 0), (0, -1), (0, 1)]

/-- Source `getNeighbors(row, col)`: the in-bounds, non-wall cells at the four
offsets, in the fixed up/down/left/right order. -/
def getNeighbors (m : Model) (p : Pos) : List Pos :=
  directions.filterMap fun d =>
    let q : Pos := (p.1 + d.1, p.2 + d.2)
    if inB m q ∧ ¬ isWall m q then some q else none

/-- Source `heuristic(pos1, pos2)`: Manhattan distance. -/
def heuristic (a b : Pos) : ℕ := mdist a b

/-- Source `toggleWall(row, col)`: no-op on the start or end cell, otherwise
flips wall membership.  (The subsequent `findPath()` call mutates no
model state, so the model-level effect is exactly this.) -/
def toggleWall (m : Model) (p : Pos) : Model :=
  if p = m.startPos ∨ p = m.endPos then m
  else if p ∈ m.walls then { m with walls := m.walls.erase p }
  else { m with walls := insert p m.walls }

/-- Source `clearWalls()`: empties the wall set. -/
def clearWalls (m : Model) : Model := { m with walls := ∅ }

/-! ## JS `Map`s as association lists

`mapGet`/`mapSet` mirror `Map.get`/`Map.set`: `get` returns the value of
the (unique) matching key or `undefined` (`none`); `set` overwrites an
existing key in place and otherwise appends at the end, preserving
insertion order. -/

/-- JS `Map.get`. -/
def mapGet {α : Type} : List (Pos × α) → Pos → Option α
  | [], _ => none
  | e :: t, k => if e.1 = k then some e.2 else mapGet t k

/-- JS `Map.set`. -/
def mapSet {α : Type} : List (Pos × α) → Pos → α → List (Pos × α)
  | [], k, v => [(k, v)]
  | e :: t, k, v => if e.1 = k then (k, v) :: t else e :: mapSet t k v

/-- JS `<` on two possibly-`undefined` numbers: `undefined` makes the
comparison `false` (NaN semantics), used by the open-set scan. -/
def ltOpt : Option ℕ → Option ℕ → Bool
  | some x, some y => x < y
  | _, _ => false

/-- The linear scan of lines 155–163: starting from `current = openSet[0]`,
`currentIdx = 0`, replace the running minimum whenever a strictly smaller
fScore is found.  `i` is the index of the head of the remaining list. -/
def selGo (fs : List (Pos × ℕ)) : Pos → ℕ → ℕ → List Pos → Pos × ℕ
  | cur, ci, _, [] => (cur, ci)
  | cur, ci, i, p :: t =>
    if ltOpt (mapGet fs p) (mapGet fs cur) then selGo fs p i (i + 1) t
    else selGo fs cur ci (i + 1) t

/-- The per-run search state of `findPath`. -/
structure AState where
  openSet : List Pos
  cameFrom : List (Pos × Pos)
  gScore : List (Pos × ℕ)
  fScore : List (Pos × ℕ)
  visited : List Pos
deriving DecidableEq

/-- Source `visited.add(key(current))`: JS `Set.add` is a no-op on a present
element and appends otherwise. -/
def addVisited (v : List Pos) (p : Pos) : List Pos :=
  if p ∈ v then v else v ++ [p]

/-- The body of the neighbor loop (lines 182–194): `tentativeGScore =
gScore.get(key(current)) + 1`; on improvement record `cameFrom`,
`gScore`, `fScore` and push the neighbor if it is not already in the
open set.  Every cell ever placed in the open set has its `gScore` set
first (the start at initialization, neighbors right before their push),
so `current` always has a score and the `none` branch is unreachable
from initial states. -/
def relax (m : Model) (cur : Pos) (st : AState) (n : Pos) : AState :=
  match mapGet st.gScore cur with
  | none => st
  | some gc =>
    let t := gc + 1
    let upd : Bool :=
      match mapGet st.gScore n with
      | none => true
      | some v => t < v
    if upd then
      { st with
        cameFrom := mapSet st.cameFrom n cur
        gScore := mapSet st.gScore n t
        fScore := mapSet st.fScore n (t + heuristic n m.endPos)
        openSet := if n ∈ st.openSet then st.openSet else st.openSet ++ [n] }
    else st

/-- Lines 177–178: `openSet.splice(currentIdx, 1)` and
`visited.add(key(current))`. -/
def spliceState (s : AState) (idx : ℕ) (cur : Pos) : AState :=
  { s with openSet := s.openSet.eraseIdx idx
           visited := addVisited s.visited cur }

/-- One expansion (lines 177–195): splice `current` out of the open set,
add it to `visited`, then relax its neighbors in order. -/
def expand (m : Model) (cur : Pos) (idx : ℕ) (s : AState) : AState :=
  (getNeighbors m cur).foldl (relax m cur) (spliceState s idx cur)

/-- Path reconstruction (lines 167–172): repeatedly `unshift` the cursor
and follow its `cameFrom` link; the loop stops at the first cell without
a link (the start cell, which is therefore never included).  The JS loop
is unbounded; `gScore` strictly decreases along `cameFrom` links, so the
chain length never exceeds the number of stored scores and the fuel
`cameFrom.length + 1` used by the caller is enough. -/
def reconPath (cf : List (Pos × Pos)) : ℕ → Pos → List Pos
  | 0, _ => []
  | fuel + 1, temp =>
    match mapGet cf temp with
    | none => []
    | some c => reconPath cf fuel c ++ [temp]

/-- The `while (openSet.length > 0)` loop of `findPath`, fuel-indexed.
`none` means the fuel ran out; `some (path?, visited)` is the result of
a completed run, with `path? = none` for the `return null` branch. -/
def loopFuel (m : Model) : ℕ → AState → Option (Option (List Pos) × List Pos)
  | 0, _ => none
  | fuel + 1, s =>
    match s.openSet with
    | [] => some (none, s.visited)
    | a :: rest =>
      let sel := selGo s.fScore a 0 1 rest
      if sel.1 = m.endPos then
        some (some (reconPath s.cameFrom (s.cameFrom.length + 1) sel.1), s.visited)
      else loopFuel m fuel (expand m sel.1 sel.2 s)

/-- The state after lines 141–151. -/
def initState (m : Model) : AState :=
  { openSet := [m.startPos]
    cameFrom := []
    gScore := [(m.startPos, 0)]
    fScore := [(m.startPos, heuristic m.startPos m.endPos)]
    visited := [] }

/-- Every cell the search can ever score: the in-bounds cells plus the
start cell (which need not be in bounds). -/
def allCells (m : Model) : Finset Pos :=
  insert m.startPos
    ((Finset.range m.rows ×ˢ Finset.range m.cols).image
      fun rc => ((rc.1 : ℤ), (rc.2 : ℤ)))

/-- Fuel that is proved to dominate the loop's iteration count. -/
def fuelBound (m : Model) : ℕ :=
  ((allCells m).card + 1) * ((allCells m).card * (allCells m).card + 1) *
    ((allCells m).card + 1)

/-- Source `findPath()`: run the loop from the initial state.  The fuel-out
default `(none, [])` is never taken (`loopFuel_total` below). -/
def findPath (m : Model) : Option (List Pos) × List Pos :=
  (loopFuel m (fuelBound m) (initState m)).getD (none, [])

/-! ## Association-list lemmas -/

/-- Sum of the stored values, used by the termination measure. -/
def sumVals (l : List (Pos × ℕ)) : ℕ := (l.map Prod.snd).sum

/-- Keys of a map. -/
def keysOf {α : Type} (l : List (Pos × α)) : List Pos := l.map Prod.fst

theorem mapGet_mapSet_self {α : Type} (l : List (Pos × α)) (k : Pos) (v : α) :
    mapGet (mapSet l k v) k = some v := by
  induction l with
  | nil => simp [mapGet, mapSet]
  | cons e t ih =>
    by_cases h : e.1 = k <;> simp [mapGet, mapSet, h, ih]

theorem mapGet_mapSet_ne {α : Type} (l : List (Pos × α)) (k p : Pos) (v : α)
    (h : p ≠ k) : mapGet (mapSet l k v) p = mapGet l p := by
  induction l with
  | nil =>
    simp only [mapSet, mapGet]
    rw [if_neg fun h' => h h'.symm]
  | cons e t ih =>
    by_cases he : e.1 = k
    · simp only [mapSet, if_pos he, mapGet]
      rw [if_neg fun h' => h h'.symm, if_neg fun h' => h (he ▸ h').symm]
    · simp only [mapSet, if_neg he, mapGet]
      by_cases hp : e.1 = p
      · simp [hp]
      · simp [hp, ih]

theorem mapGet_isSome_iff {α : Type} (l : List (Pos × α)) (k : Pos) :
    (mapGet l k).isSome ↔ k ∈ keysOf l := by
  induction l with
  | nil => simp [mapGet, keysOf]
  | cons e t ih =>
    simp only [mapGet, keysOf, List.map_cons, List.mem_cons]
    by_cases h : e.1 = k
    · simp [h]
    · rw [if_neg h]
      unfold keysOf at ih
      rw [ih]
      constructor
      · exact fun hm => Or.inr hm
      · rintro (hm | hm)
        · exact absurd hm.symm h
        · exact hm

theorem keysOf_mapSet_of_has {α : Type} (l : List (Pos × α)) (k : Pos) (v : α)
    (h : (mapGet l k).isSome) : keysOf (mapSet l k v) = keysOf l := by
  induction l with
  | nil => simp [mapGet] at h
  | cons e t ih =>
    by_cases he : e.1 = k
    · simp [mapSet, keysOf, he]
    · simp [mapGet, he] at h
      simp [mapSet, keysOf, he] at ih ⊢
      exact ih h

theorem keysOf_mapSet_of_new {α : Type} (l : List (Pos × α)) (k : Pos) (v : α)
    (h : mapGet l k = none) : keysOf (mapSet l k v) = keysOf l ++ [k] := by
  induction l with
  | nil => simp [mapSet, keysOf]
  | cons e t ih =>
    by_cases he : e.1 = k
    · simp [mapGet, he] at h
    · simp [mapGet, he] at h
      simp [mapSet, keysOf, he] at ih ⊢
      exact ih h

theorem sumVals_mapSet_of_has (l : List (Pos × ℕ)) (k : Pos) (v v₀ : ℕ)
    (h : mapGet l k = some v₀) :
    sumVals (mapSet l k v) + v₀ = sumVals l + v := by
  induction l with
  | nil => simp [mapGet] at h
  | cons e t ih =>
    by_cases he : e.1 = k
    · simp [mapGet, he] at h
      simp [mapSet, sumVals, he, h]
      omega
    · simp [mapGet, he] at h
      simp [mapSet, sumVals, he] at ih ⊢
      have := ih h
      omega

theorem length_mapSet_of_has {α : Type} (l : List (Pos × α)) (k : Pos) (v : α)
    (h : (mapGet l k).isSome) : (mapSet l k v).length = l.length := by
  have := congrArg List.length (keysOf_mapSet_of_has l k v h)
  simpa [keysOf] using this

theorem length_mapSet_of_new {α : Type} (l : List (Pos × α)) (k : Pos) (v : α)
    (h : mapGet l k = none) : (mapSet l k v).length = l.length + 1 := by
  have := congrArg List.length (keysOf_mapSet_of_new l k v h)
  simpa [keysOf] using this

/-- Values present after a `set` come from the new binding or the old map. -/
theorem mapGet_mapSet_cases {α : Type} (l : List (Pos × α)) (k p : Pos) (v : α)
    (w : α) (h : mapGet (mapSet l k v) p = some w) :
    (p = k ∧ w = v) ∨ mapGet l p = some w := by
  by_cases hp : p = k
  · subst hp
    rw [mapGet_mapSet_self] at h
    exact Or.inl ⟨rfl, (Option.some_inj.mp h).symm⟩
  · rw [mapGet_mapSet_ne l k p v hp] at h
    exact Or.inr h

/-! ## `ltOpt` lemmas -/

theorem ltOpt_irrefl (x : Option ℕ) : ltOpt x x = false := by
  cases x <;> simp [ltOpt]

theorem ltOpt_trans {a b c : Option ℕ} (h1 : ltOpt a b = true)
    (h2 : ltOpt b c = true) : ltOpt a c = true := by
  cases a <;> cases b <;> cases c <;> simp [ltOpt] at * <;> omega

theorem ltOpt_asymm {a b : Option ℕ} (h : ltOpt a b = true) :
    ltOpt b a = false := by
  cases a <;> cases b <;> simp [ltOpt] at * <;> omega

/-! ## `selGo` lemmas -/

theorem selGo_nil (fs : List (Pos × ℕ)) (cur : Pos) (ci i : ℕ) :
    selGo fs cur ci i [] = (cur, ci) := rfl

theorem selGo_cons (fs : List (Pos × ℕ)) (cur p : Pos) (ci i : ℕ)
    (t : List Pos) :
    selGo fs cur ci i (p :: t) =
      if ltOpt (mapGet fs p) (mapGet fs cur) then selGo fs p i (i + 1) t
      else selGo fs cur ci (i + 1) t := rfl

/-- The scan returns its running candidate or an element of the rest. -/
theorem selGo_mem (fs : List (Pos × ℕ)) :
    ∀ (l : List Pos) (cur : Pos) (ci i : ℕ),
      (selGo fs cur ci i l).1 = cur ∨ (selGo fs cur ci i l).1 ∈ l := by
  intro l
  induction l with
  | nil => intro cur ci i; simp [selGo_nil]
  | cons p t ih =>
    intro cur ci i
    by_cases h : ltOpt (mapGet fs p) (mapGet fs cur) = true
    · rw [selGo_cons, if_pos h]
      rcases ih p i (i + 1) with h' | h'
      · exact Or.inr (by simp [h'])
      · exact Or.inr (by simp [h'])
    · rw [selGo_cons, if_neg h]
      rcases ih cur ci (i + 1) with h' | h'
      · exact Or.inl h'
      · exact Or.inr (by simp [h'])

/-- The scan result either is the initial candidate with its index, or is
found in the rest at the index it reports. -/
theorem selGo_idx (fs : List (Pos × ℕ)) :
    ∀ (l : List Pos) (cur : Pos) (ci i : ℕ),
      selGo fs cur ci i l = (cur, ci) ∨
        ∃ j, j < l.length ∧ l[j]? = some (selGo fs cur ci i l).1 ∧
          (selGo fs cur ci i l).2 = i + j := by
  intro l
  induction l with
  | nil => intro cur ci i; simp [selGo_nil]
  | cons p t ih =>
    intro cur ci i
    by_cases h : ltOpt (mapGet fs p) (mapGet fs cur) = true
    · rw [selGo_cons, if_pos h]
      rcases ih p i (i + 1) with h' | ⟨j, hj, hget, hidx⟩
      · refine Or.inr ⟨0, by simp, ?_, ?_⟩ <;> simp [h']
      · refine Or.inr ⟨j + 1, ?_, by simpa using hget, by omega⟩
        simp only [List.length_cons]; omega
    · rw [selGo_cons, if_neg h]
      rcases ih cur ci (i + 1) with h' | ⟨j, hj, hget, hidx⟩
      · exact Or.inl h'
      · refine Or.inr ⟨j + 1, ?_, by simpa using hget, by omega⟩
        simp only [List.length_cons]; omega

/-- The scan result's fScore never strictly improves on the candidate's. -/
theorem selGo_improve (fs : List (Pos × ℕ)) :
    ∀ (l : List Pos) (cur : Pos) (ci i : ℕ),
      (selGo fs cur ci i l).1 = cur ∨
        ltOpt (mapGet fs (selGo fs cur ci i l).1) (mapGet fs cur) = true := by
  intro l
  induction l with
  | nil => intro cur ci i; simp [selGo_nil]
  | cons p t ih =>
    intro cur ci i
    by_cases h : ltOpt (mapGet fs p) (mapGet fs cur) = true
    · rw [selGo_cons, if_pos h]
      rcases ih p i (i + 1) with h' | h'
      · rw [h']; exact Or.inr h
      · exact Or.inr (ltOpt_trans h' h)
    · rw [selGo_cons, if_neg h]
      exact ih cur ci (i + 1)

/-- Minimality: no scanned element has a strictly smaller fScore than the
result (lines 158–162 replace the candidate on any strict improvement). -/
theorem selGo_min (fs : List (Pos × ℕ)) :
    ∀ (l : List Pos) (cur : Pos) (ci i : ℕ) (p : Pos),
      p = cur ∨ p ∈ l →
      ltOpt (mapGet fs p) (mapGet fs (selGo fs cur ci i l).1) = false := by
  intro l
  induction l with
  | nil =>
    intro cur ci i p hp
    simp at hp
    simp [selGo_nil, hp, ltOpt_irrefl]
  | cons q t ih =>
    intro cur ci i p hp
    by_cases h : ltOpt (mapGet fs q) (mapGet fs cur) = true
    · rw [selGo_cons, if_pos h]
      rcases hp with hp | hp
      · subst hp
        rcases selGo_improve fs t q i (i + 1) with h' | h'
        · rw [h']; exact ltOpt_asymm h
        · exact ltOpt_asymm (ltOpt_trans h' h)
      · rcases List.mem_cons.mp hp with hp | hp
        · exact ih q i (i + 1) p (Or.inl hp)
        · exact ih q i (i + 1) p (Or.inr hp)
    · rw [selGo_cons, if_neg h]
      have hf : ltOpt (mapGet fs q) (mapGet fs cur) = false := by
        simpa using h
      rcases hp with hp | hp
      · exact ih cur ci (i + 1) p (Or.inl hp)
      · rcases List.mem_cons.mp hp with hp | hp
        · subst hp
          rcases selGo_improve fs t cur ci (i + 1) with h' | h'
          · rw [h']; exact hf
          · by_cases hps : ltOpt (mapGet fs p) (mapGet fs (selGo fs cur ci (i+1) t).1) = true
            · exact absurd (ltOpt_trans hps h') (by simp [hf])
            · simpa using hps
        · exact ih cur ci (i + 1) p (Or.inr hp)

/-! ## Neighbor lemmas and reachability -/

/-- Soundness of `getNeighbors`: a produced cell is one step away,
in bounds, and not a wall. -/
theorem getNeighbors_sound {m : Model} {p q : Pos}
    (h : q ∈ getNeighbors m p) : mdist p q = 1 ∧ inB m q ∧ ¬ isWall m q := by
  unfold getNeighbors directions at h
  rcases List.mem_filterMap.mp h with ⟨d, hd, hf⟩
  simp only [List.mem_cons, List.not_mem_nil, or_false] at hd
  rcases hd with hd | hd | hd | hd <;> subst hd <;>
    (simp only at hf; split at hf <;> simp_all) <;>
    (subst hf; simp only [mdist]; omega)

/-- Completeness of `getNeighbors`: an in-bounds non-wall cell at one of
the four offsets is produced. -/
theorem getNeighbors_complete {m : Model} (p : Pos) (d : Pos)
    (hd : d ∈ directions) (hb : inB m (p.1 + d.1, p.2 + d.2))
    (hw : ¬ isWall m (p.1 + d.1, p.2 + d.2)) :
    (p.1 + d.1, p.2 + d.2) ∈ getNeighbors m p := by
  unfold getNeighbors
  exact List.mem_filterMap.mpr ⟨d, hd, by simp [hb, hw]⟩

/-- Cells reachable from the start through `getNeighbors` steps: the
spec's "cells reachable from start through non-obstacle cells". -/
inductive Reach (m : Model) : Pos → Prop
  | start : Reach m m.startPos
  | step {c n : Pos} : Reach m c → n ∈ getNeighbors m c → Reach m n

/-! ## Claim C7: `toggleWall` -/

/-- Concrete models used as witnesses and counterexamples. -/
def mc1 : Model := { rows := 1, cols := 2, walls := ∅, startPos := (0, 0), endPos := (0, 1) }

def mc7 : Model := { rows := 3, cols := 3, walls := {(0, 2)}, startPos := (0, 0), endPos := (2, 2) }

def mc8 : Model := { rows := 3, cols := 3, walls := ∅, startPos := (1, 1), endPos := (1, 1) }

theorem toggleWall_walls (m : Model) (c : Pos) (hs : c ≠ m.startPos)
    (he : c ≠ m.endPos) :
    (toggleWall m c).walls = (if c ∈ m.walls then m.walls.erase c else insert c m.walls) ∧
      (toggleWall m c).startPos = m.startPos ∧ (toggleWall m c).endPos = m.endPos := by
  unfold toggleWall
  rw [if_neg (by tauto)]
  split <;> simp_all

theorem toggleWall_keeps (m : Model) (c : Pos)
    (h : c = m.startPos ∨ c = m.endPos) : toggleWall m c = m := by
  unfold toggleWall
  rw [if_pos h]

/-- C7: the double-toggle identity. -/
theorem toggleWall_toggleWall (m : Model) (c : Pos) (hs : c ≠ m.startPos)
    (he : c ≠ m.endPos) : toggleWall (toggleWall m c) c = m := by
  cases m with
  | mk rows cols walls startPos endPos =>
    simp only at hs he
    by_cases h : c ∈ walls
    · simp [toggleWall, hs, he, h, Finset.insert_erase h]
    · simp [toggleWall, hs, he, h, Finset.erase_insert h]

/-- C7: `toggleWall` is a no-op on the start and end cells; on any other
cell it flips exactly that cell's wall membership, and toggling the same
cell twice restores the model and hence the subsequent search result. -/
theorem claim_c7_toggle (m : Model) (c : Pos) (hs : c ≠ m.startPos)
    (he : c ≠ m.endPos) :
    toggleWall m m.startPos = m ∧ toggleWall m m.endPos = m ∧
    (c ∈ (toggleWall m c).walls ↔ c ∉ m.walls) ∧
    (∀ d, d ≠ c → (d ∈ (toggleWall m c).walls ↔ d ∈ m.walls)) ∧
    toggleWall (toggleWall m c) c = m ∧
    findPath (toggleWall (toggleWall m c) c) = findPath m := by
  obtain ⟨hw, -, -⟩ := toggleWall_walls m c hs he
  refine ⟨toggleWall_keeps m _ (Or.inl rfl), toggleWall_keeps m _ (Or.inr rfl),
    ?_, ?_, toggleWall_toggleWall m c hs he,
    congrArg findPath (toggleWall_toggleWall m c hs he)⟩
  · rw [hw]
    by_cases h : c ∈ m.walls <;> simp [h]
  · intro d hd
    rw [hw]
    by_cases h : c ∈ m.walls
    · simp [h, Finset.mem_erase, hd]
    · simp [h, Finset.mem_insert, hd]

/-- C7 witness: the toggle facts at a concrete model and cell. -/
theorem claim_c7_toggle_witness :
    toggleWall (toggleWall mc7 (1, 1)) (1, 1) = mc7 ∧
    ((1, 1) ∈ (toggleWall mc7 (1, 1)).walls ↔ (1, 1) ∉ mc7.walls) :=
  ⟨(claim_c7_toggle mc7 (1, 1) (by decide) (by decide)).2.2.2.2.1,
   (claim_c7_toggle mc7 (1, 1) (by decide) (by decide)).2.2.1⟩

/-- C8 counterexample: on a model whose start equals its end the search
reports found with an *empty* path, not the 1-cell path `[start]` the
claim describes. -/
theorem claim_c8_cex :
    (findPath mc8).1 = some [] ∧ some ([] : List Pos) ≠ some [mc8.startPos] := by
  constructor
  · decide
  · decide

/-- C8 (amended): when start = end the search reports found=true with an
empty returned path (the degenerate route is the single cell start, which
the reconstruction always omits), and an empty visited set. -/
theorem claim_c8_amended (m : Model) (h : m.startPos = m.endPos) :
    findPath m = (some [], []) := by
  have hpos : 0 < fuelBound m := by unfold fuelBound; positivity
  obtain ⟨k, hk⟩ : ∃ k, fuelBound m = k + 1 := ⟨fuelBound m - 1, by omega⟩
  unfold findPath
  rw [hk]
  simp [loopFuel, initState, selGo, reconPath, mapGet, h]

/-- C8 amended witness. -/
theorem claim_c8_amended_witness : findPath mc8 = (some [], []) :=
  claim_c8_amended mc8 (by decide)

/-- C1 counterexample: a 1×2 wall-free grid with start `(0,0)` and end
`(0,1)`.  The search reports found, but the first element of the
returned path is `(0,1)`, not the start cell: the reconstruction loop
stops before including start. -/
theorem claim_c1_cex :
    (findPath mc1).1 = some [(0, 1)] ∧ ((0, 1) : Pos) ≠ mc1.startPos := by
  constructor
  · decide
  · decide

/-! ## Small helper lemmas -/

theorem mdist_comm (a b : Pos) : mdist a b = mdist b a := by
  unfold mdist; omega

theorem mdist_triangle (a b c : Pos) : mdist a c ≤ mdist a b + mdist b c := by
  unfold mdist; omega

theorem mdist_eq_zero_iff {a b : Pos} : mdist a b = 0 ↔ a = b := by
  unfold mdist
  constructor
  · intro h
    have h1 : a.1 = b.1 := by omega
    have h2 : a.2 = b.2 := by omega
    exact Prod.ext h1 h2
  · intro h; subst h; omega

theorem mem_allCells_of_inB {m : Model} {p : Pos} (h : inB m p) :
    p ∈ allCells m := by
  unfold allCells
  refine Finset.mem_insert_of_mem (Finset.mem_image.mpr ⟨(p.1.toNat, p.2.toNat), ?_, ?_⟩)
  · obtain ⟨h1, h2, h3, h4⟩ := h
    refine Finset.mem_product.mpr ⟨Finset.mem_range.mpr ?_, Finset.mem_range.mpr ?_⟩ <;> omega
  · obtain ⟨h1, h2, h3, h4⟩ := h
    have e1 : (p.1.toNat : ℤ) = p.1 := Int.toNat_of_nonneg h1
    have e2 : (p.2.toNat : ℤ) = p.2 := Int.toNat_of_nonneg h3
    exact Prod.ext e1 e2

theorem startPos_mem_allCells (m : Model) : m.startPos ∈ allCells m :=
  Finset.mem_insert_self _ _

theorem mem_eraseIdx_of_ne :
    ∀ (l : List Pos) (i : ℕ) (p : Pos), p ∈ l → l[i]? ≠ some p →
      p ∈ l.eraseIdx i := by
  intro l
  induction l with
  | nil => intro i p h; simp at h
  | cons a t ih =>
    intro i p h hne
    cases i with
    | zero =>
      simp only [List.eraseIdx]
      rcases List.mem_cons.mp h with h | h
      · exact absurd (by simp [h]) hne
      · exact h
    | succ j =>
      simp only [List.eraseIdx]
      rcases List.mem_cons.mp h with h | h
      · simp [h]
      · exact List.mem_cons_of_mem a (ih j p h (by simpa using hne))

theorem mem_of_mem_eraseIdx {l : List Pos} {i : ℕ} {p : Pos}
    (h : p ∈ l.eraseIdx i) : p ∈ l :=
  (List.eraseIdx_sublist l i).mem h

theorem eq_of_not_mem_eraseIdx {l : List Pos} {i : ℕ} {p : Pos}
    (hmem : p ∈ l) (hnot : p ∉ l.eraseIdx i) : l[i]? = some p := by
  by_cases h : l[i]? = some p
  · exact h
  · exact absurd (mem_eraseIdx_of_ne l i p hmem h) hnot

theorem mem_addVisited_iff (v : List Pos) (p q : Pos) :
    q ∈ addVisited v p ↔ q ∈ v ∨ q = p := by
  unfold addVisited
  split <;> rename_i h
  · constructor
    · exact fun hq => Or.inl hq
    · rintro (hq | rfl) <;> assumption
  · simp [or_comm]

/-! ## `relax` case equations -/

theorem relax_of_no_cur {m : Model} {cur : Pos} {st : AState} {n : Pos}
    (h : mapGet st.gScore cur = none) : relax m cur st n = st := by
  unfold relax; rw [h]

theorem relax_of_update {m : Model} {cur : Pos} {st : AState} {n : Pos}
    {gc : ℕ} (h : mapGet st.gScore cur = some gc)
    (hupd : mapGet st.gScore n = none ∨
      ∃ v, mapGet st.gScore n = some v ∧ gc + 1 < v) :
    relax m cur st n =
      { st with
        cameFrom := mapSet st.cameFrom n cur
        gScore := mapSet st.gScore n (gc + 1)
        fScore := mapSet st.fScore n (gc + 1 + heuristic n m.endPos)
        openSet := if n ∈ st.openSet then st.openSet else st.openSet ++ [n] } := by
  unfold relax
  rw [h]
  rcases hupd with hupd | ⟨v, hv, hlt⟩
  · rw [hupd]; simp
  · rw [hv]; simp [hlt]

theorem relax_of_skip {m : Model} {cur : Pos} {st : AState} {n : Pos}
    {gc v : ℕ} (h : mapGet st.gScore cur = some gc)
    (hv : mapGet st.gScore n = some v) (hle : v ≤ gc + 1) :
    relax m cur st n = st := by
  unfold relax
  rw [h, hv]
  have hnl : ¬ (gc + 1 < v) := by omega
  simp [hnl]

/-- Exhaustive case split for `relax`. -/
theorem relax_cases (m : Model) (cur : Pos) (st : AState) (n : Pos) :
    relax m cur st n = st ∨
      ∃ gc, mapGet st.gScore cur = some gc ∧
        (mapGet st.gScore n = none ∨
          ∃ v, mapGet st.gScore n = some v ∧ gc + 1 < v) ∧
        relax m cur st n =
          { st with
            cameFrom := mapSet st.cameFrom n cur
            gScore := mapSet st.gScore n (gc + 1)
            fScore := mapSet st.fScore n (gc + 1 + heuristic n m.endPos)
            openSet := if n ∈ st.openSet then st.openSet
              else st.openSet ++ [n] } := by
  cases hc : mapGet st.gScore cur with
  | none => exact Or.inl (relax_of_no_cur hc)
  | some gc =>
    cases hn : mapGet st.gScore n with
    | none =>
      exact Or.inr ⟨gc, rfl, Or.inl rfl, relax_of_update hc (Or.inl hn)⟩
    | some v =>
      by_cases hlt : gc + 1 < v
      · exact Or.inr ⟨gc, rfl, Or.inr ⟨v, rfl, hlt⟩,
          relax_of_update hc (Or.inr ⟨v, hn, hlt⟩)⟩
      · exact Or.inl (relax_of_skip hc hn (by omega))

/-! ## The search invariant

`MInv` lists the facts stable under every single `relax`; `Inv` adds the
closure fact about visited cells, which only holds again once a whole
expansion has finished. -/

structure MInv (m : Model) (s : AState) : Prop where
  openG : ∀ p ∈ s.openSet, (mapGet s.gScore p).isSome
  gOV : ∀ p, (mapGet s.gScore p).isSome → p ∈ s.openSet ∨ p ∈ s.visited
  gs0 : mapGet s.gScore m.startPos = some 0
  cfKey : ∀ n c, mapGet s.cameFrom n = some c → n ∈ getNeighbors m c
  cfG : ∀ n c, mapGet s.cameFrom n = some c →
    ∃ vn vc, mapGet s.gScore n = some vn ∧ mapGet s.gScore c = some vc ∧
      vc + 1 ≤ vn
  cfAll : ∀ p, (mapGet s.gScore p).isSome → p ≠ m.startPos →
    (mapGet s.cameFrom p).isSome
  cfStart : mapGet s.cameFrom m.startPos = none
  visEnd : m.endPos ∉ s.visited
  openR : ∀ p ∈ s.openSet, Reach m p
  visR : ∀ p ∈ s.visited, Reach m p
  openB : ∀ p ∈ s.openSet, p = m.startPos ∨ (inB m p ∧ ¬ isWall m p)
  visB : ∀ p ∈ s.visited, p = m.startPos ∨ (inB m p ∧ ¬ isWall m p)
  gLB : ∀ p v, mapGet s.gScore p = some v → mdist m.startPos p ≤ v
  fG : ∀ p, mapGet s.fScore p =
    (mapGet s.gScore p).map fun v => v + heuristic p m.endPos
  gBound : ∀ p v, mapGet s.gScore p = some v → v < s.gScore.length
  lenCF : s.cameFrom.length + 1 = s.gScore.length
  gNodup : (keysOf s.gScore).Nodup
  gSub : ∀ p, (mapGet s.gScore p).isSome → p ∈ allCells m
  openNodup : s.openSet.Nodup

structure Inv (m : Model) (s : AState) extends MInv m s : Prop where
  visN : ∀ c ∈ s.visited, ∀ n ∈ getNeighbors m c, (mapGet s.gScore n).isSome

theorem neighbor_ne_self {m : Model} {cur n : Pos}
    (hn : n ∈ getNeighbors m cur) : n ≠ cur := by
  intro h
  have h1 := (getNeighbors_sound hn).1
  rw [h] at h1
  rw [mdist_eq_zero_iff.mpr rfl] at h1
  cases h1

/-- Preservation of the stable invariant by one `relax` call. -/
theorem relax_pres {m : Model} {cur : Pos} {st : AState} {n : Pos}
    (hn : n ∈ getNeighbors m cur) (hR : Reach m cur) (hI : MInv m st) :
    MInv m (relax m cur st n) := by
  rcases relax_cases m cur st n with heq | ⟨gc, hgc, hupd, heq⟩
  · rw [heq]; exact hI
  · have hncur : n ≠ cur := neighbor_ne_self hn
    have hnstart : n ≠ m.startPos := by
      intro h; subst h
      rcases hupd with h0 | ⟨v, hv, hlt⟩
      · rw [hI.gs0] at h0; cases h0
      · rw [hI.gs0] at hv
        cases hv; omega
    have hopen : ∀ p, p ∈ st.openSet →
        p ∈ (if n ∈ st.openSet then st.openSet else st.openSet ++ [n]) := by
      intro p hp; split <;> simp [hp]
    have hopen' : ∀ p,
        p ∈ (if n ∈ st.openSet then st.openSet else st.openSet ++ [n]) →
        p ∈ st.openSet ∨ p = n := by
      intro p hp
      split at hp
      · exact Or.inl hp
      · simpa using hp
    have hnopen : n ∈ (if n ∈ st.openSet then st.openSet else st.openSet ++ [n]) := by
      split <;> simp_all
    rw [heq]
    constructor <;> dsimp only
    · -- openG
      intro p hp
      by_cases hpn : p = n
      · subst hpn
        simp [mapGet_mapSet_self]
      · rcases hopen' p hp with hp' | hp'
        · simp only [mapGet_mapSet_ne _ _ _ _ hpn]
          exact hI.openG p hp'
        · exact absurd hp' hpn
    · -- gOV
      intro p hp
      by_cases hpn : p = n
      · subst hpn
        exact Or.inl hnopen
      · simp only [mapGet_mapSet_ne _ _ _ _ hpn] at hp
        rcases hI.gOV p hp with hp' | hp'
        · exact Or.inl (hopen p hp')
        · exact Or.inr hp'
    · -- gs0
      rw [mapGet_mapSet_ne _ _ _ _ fun h => hnstart h.symm]
      exact hI.gs0
    · -- cfKey
      intro q c hq
      by_cases hqn : q = n
      · subst hqn
        rw [mapGet_mapSet_self] at hq
        cases hq
        exact hn
      · rw [mapGet_mapSet_ne _ _ _ _ hqn] at hq
        exact hI.cfKey q c hq
    · -- cfG
      intro q c hq
      by_cases hqn : q = n
      · subst hqn
        rw [mapGet_mapSet_self] at hq
        cases hq
        refine ⟨gc + 1, gc, mapGet_mapSet_self _ _ _, ?_, le_refl _⟩
        rw [mapGet_mapSet_ne _ _ _ _ fun h => hncur h.symm]
        exact hgc
      · rw [mapGet_mapSet_ne _ _ _ _ hqn] at hq
        obtain ⟨vn, vc, hvn, hvc, hle⟩ := hI.cfG q c hq
        by_cases hcn : c = n
        · subst hcn
          rcases hupd with h0 | ⟨v, hv, hlt⟩
          · rw [h0] at hvc; cases hvc
          · rw [hv] at hvc
            cases hvc
            refine ⟨vn, gc + 1, ?_, mapGet_mapSet_self _ _ _, by omega⟩
            rw [mapGet_mapSet_ne _ _ _ _ hqn]
            exact hvn
        · refine ⟨vn, vc, ?_, ?_, hle⟩
          · rw [mapGet_mapSet_ne _ _ _ _ hqn]; exact hvn
          · rw [mapGet_mapSet_ne _ _ _ _ hcn]; exact hvc
    · -- cfAll
      intro p hp hps
      by_cases hpn : p = n
      · subst hpn
        simp [mapGet_mapSet_self]
      · rw [mapGet_mapSet_ne _ _ _ _ hpn] at hp
        rw [mapGet_mapSet_ne _ _ _ _ hpn]
        exact hI.cfAll p hp hps
    · -- cfStart
      rw [mapGet_mapSet_ne _ _ _ _ (fun h => hnstart h.symm)]
      exact hI.cfStart
    · -- visEnd
      exact hI.visEnd
    · -- openR
      intro p hp
      rcases hopen' p hp with hp' | hp'
      · exact hI.openR p hp'
      · subst hp'
        exact Reach.step hR hn
    · -- visR
      exact hI.visR
    · -- openB
      intro p hp
      rcases hopen' p hp with hp' | hp'
      · exact hI.openB p hp'
      · subst hp'
        exact Or.inr ⟨(getNeighbors_sound hn).2.1, (getNeighbors_sound hn).2.2⟩
    · -- visB
      exact hI.visB
    · -- gLB
      intro p v hp
      by_cases hpn : p = n
      · subst hpn
        rw [mapGet_mapSet_self] at hp
        cases hp
        have h1 := hI.gLB cur gc hgc
        have h2 := (getNeighbors_sound hn).1
        have h3 := mdist_triangle m.startPos cur p
        omega
      · rw [mapGet_mapSet_ne _ _ _ _ hpn] at hp
        exact hI.gLB p v hp
    · -- fG
      intro p
      by_cases hpn : p = n
      · subst hpn
        rw [mapGet_mapSet_self, mapGet_mapSet_self]
        rfl
      · rw [mapGet_mapSet_ne _ _ _ _ hpn, mapGet_mapSet_ne _ _ _ _ hpn]
        exact hI.fG p
    · -- gBound
      intro p v hp
      have hgclen := hI.gBound cur gc hgc
      rcases hupd with h0 | ⟨w, hw, hlt⟩
      · rw [length_mapSet_of_new _ _ _ h0]
        rcases mapGet_mapSet_cases _ _ _ _ _ hp with ⟨hpn, hv⟩ | hold
        · omega
        · have := hI.gBound p v hold
          omega
      · rw [length_mapSet_of_has st.gScore n (gc + 1) (by simp [hw])]
        rcases mapGet_mapSet_cases _ _ _ _ _ hp with ⟨hpn, hv⟩ | hold
        · have := hI.gBound n w hw
          omega
        · exact hI.gBound p v hold
    · -- lenCF
      rcases hupd with h0 | ⟨w, hw, hlt⟩
      · have hcfn : mapGet st.cameFrom n = none := by
          cases hcf : mapGet st.cameFrom n with
          | none => rfl
          | some c =>
            obtain ⟨vn, vc, hvn, -, -⟩ := hI.cfG n c hcf
            rw [h0] at hvn
            cases hvn
        rw [length_mapSet_of_new _ _ _ h0, length_mapSet_of_new _ _ _ hcfn]
        have := hI.lenCF
        omega
      · have hcfn : (mapGet st.cameFrom n).isSome :=
          hI.cfAll n (by simp [hw]) hnstart
        rw [length_mapSet_of_has st.gScore n (gc + 1) (by simp [hw]),
          length_mapSet_of_has st.cameFrom n cur hcfn]
        exact hI.lenCF
    · -- gNodup
      rcases hupd with h0 | ⟨w, hw, hlt⟩
      · rw [keysOf_mapSet_of_new _ _ _ h0]
        have hnmem : n ∉ keysOf st.gScore := by
          intro hmem
          have := (mapGet_isSome_iff st.gScore n).mpr hmem
          rw [h0] at this
          cases this
        simp [List.nodup_append, hI.gNodup, hnmem]
      · rw [keysOf_mapSet_of_has st.gScore n (gc + 1) (by simp [hw])]
        exact hI.gNodup
    · -- gSub
      intro p hp
      by_cases hpn : p = n
      · subst hpn
        exact mem_allCells_of_inB (getNeighbors_sound hn).2.1
      · rw [mapGet_mapSet_ne _ _ _ _ hpn] at hp
        exact hI.gSub p hp
    · -- openNodup
      split
      · exact hI.openNodup
      · rename_i hne
        simp [List.nodup_append, hI.openNodup, hne]

/-! ## Fold-level lemmas for one expansion -/

theorem fold_pres {m : Model} {cur : Pos} :
    ∀ (ns : List Pos) (st : AState), (∀ n ∈ ns, n ∈ getNeighbors m cur) →
      Reach m cur → MInv m st → MInv m (ns.foldl (relax m cur) st) := by
  intro ns
  induction ns with
  | nil => intro st _ _ hI; exact hI
  | cons n t ih =>
    intro st hns hR hI
    exact ih (relax m cur st n) (fun q hq => hns q (List.mem_cons_of_mem n hq))
      hR (relax_pres (hns n (List.mem_cons_self n t)) hR hI)

theorem relax_g_le (m : Model) (cur : Pos) {st : AState} (n : Pos) {p : Pos} {v : ℕ}
    (h : mapGet st.gScore p = some v) :
    ∃ v', v' ≤ v ∧ mapGet (relax m cur st n).gScore p = some v' := by
  rcases relax_cases m cur st n with heq | ⟨gc, hgc, hupd, heq⟩
  · exact ⟨v, le_refl v, by rw [heq]; exact h⟩
  · rw [heq]
    by_cases hpn : p = n
    · subst hpn
      rcases hupd with h0 | ⟨w, hw, hlt⟩
      · rw [h0] at h; cases h
      · rw [hw] at h
        cases h
        exact ⟨gc + 1, by omega, mapGet_mapSet_self _ _ _⟩
    · exact ⟨v, le_refl v, by rw [mapGet_mapSet_ne _ _ _ _ hpn]; exact h⟩

theorem fold_g_le (m : Model) (cur : Pos) :
    ∀ (ns : List Pos) (st : AState) (p : Pos) (v : ℕ),
      mapGet st.gScore p = some v →
      ∃ v', v' ≤ v ∧ mapGet (ns.foldl (relax m cur) st).gScore p = some v' := by
  intro ns
  induction ns with
  | nil => intro st p v h; exact ⟨v, le_refl v, h⟩
  | cons n t ih =>
    intro st p v h
    obtain ⟨v1, hv1, h1⟩ := relax_g_le m cur n h
    obtain ⟨v2, hv2, h2⟩ := ih (relax m cur st n) p v1 h1
    exact ⟨v2, by omega, h2⟩

theorem fold_g_isSome {m : Model} {cur : Pos} {ns : List Pos} {st : AState}
    {p : Pos} (h : (mapGet st.gScore p).isSome) :
    (mapGet (ns.foldl (relax m cur) st).gScore p).isSome := by
  obtain ⟨v, hv⟩ := Option.isSome_iff_exists.mp h
  obtain ⟨v', -, h'⟩ := fold_g_le m cur ns st p v hv
  simp [h']

theorem relax_visited_eq (m : Model) (cur : Pos) (st : AState) (n : Pos) :
    (relax m cur st n).visited = st.visited := by
  rcases relax_cases m cur st n with heq | ⟨gc, hgc, hupd, heq⟩ <;> rw [heq]

theorem fold_visited_eq (m : Model) (cur : Pos) :
    ∀ (ns : List Pos) (st : AState),
      (ns.foldl (relax m cur) st).visited = st.visited := by
  intro ns
  induction ns with
  | nil => intro st; rfl
  | cons n t ih =>
    intro st
    rw [List.foldl_cons, ih, relax_visited_eq]

theorem relax_g_stable {m : Model} {cur : Pos} (st : AState) {n : Pos}
    (q : Pos) (hq : q ≠ n) :
    mapGet (relax m cur st n).gScore q = mapGet st.gScore q := by
  rcases relax_cases m cur st n with heq | ⟨gc, hgc, hupd, heq⟩ <;> rw [heq]
  exact mapGet_mapSet_ne _ _ _ _ hq

theorem fold_neighbor_le (m : Model) (cur : Pos) :
    ∀ (ns : List Pos) (st : AState) (gc : ℕ),
      mapGet st.gScore cur = some gc →
      (∀ n ∈ ns, n ∈ getNeighbors m cur) →
      ∀ n ∈ ns, ∃ v, v ≤ gc + 1 ∧
        mapGet (ns.foldl (relax m cur) st).gScore n = some v := by
  intro ns
  induction ns with
  | nil => intro st gc _ _ n hn; cases hn
  | cons n0 t ih =>
    intro st gc hgc hns n hn
    have hn0cur : n0 ≠ cur := neighbor_ne_self (hns n0 (List.mem_cons_self n0 t))
    have hstable : mapGet (relax m cur st n0).gScore cur = some gc := by
      rw [relax_g_stable st cur fun h => hn0cur h.symm]
      exact hgc
    rcases List.mem_cons.mp hn with hn | hn
    · subst hn
      have hafter : ∃ v, v ≤ gc + 1 ∧
          mapGet (relax m cur st n).gScore n = some v := by
        cases h0 : mapGet st.gScore n with
        | none =>
          rw [relax_of_update hgc (Or.inl h0)]
          exact ⟨gc + 1, le_refl _, mapGet_mapSet_self _ _ _⟩
        | some w =>
          by_cases hlt : gc + 1 < w
          · rw [relax_of_update hgc (Or.inr ⟨w, h0, hlt⟩)]
            exact ⟨gc + 1, le_refl _, mapGet_mapSet_self _ _ _⟩
          · rw [relax_of_skip hgc h0 (by omega)]
            exact ⟨w, by omega, h0⟩
      obtain ⟨v, hv, hsome⟩ := hafter
      obtain ⟨v', hv', hsome'⟩ := fold_g_le m cur t (relax m cur st n) n v hsome
      exact ⟨v', by omega, hsome'⟩
    · exact ih (relax m cur st n0) gc hstable
        (fun q hq => hns q (List.mem_cons_of_mem n0 hq)) n hn

theorem relax_open_mono {m : Model} {cur : Pos} {st : AState} {n p : Pos}
    (h : p ∈ st.openSet) : p ∈ (relax m cur st n).openSet := by
  rcases relax_cases m cur st n with heq | ⟨gc, hgc, hupd, heq⟩ <;> rw [heq]
  · exact h
  · dsimp only
    split <;> simp [h]

theorem fold_open_mono (m : Model) (cur : Pos) :
    ∀ (ns : List Pos) (st : AState) (p : Pos),
      p ∈ st.openSet → p ∈ (ns.foldl (relax m cur) st).openSet := by
  intro ns
  induction ns with
  | nil => intro st p h; exact h
  | cons n t ih =>
    intro st p h
    exact ih (relax m cur st n) p (relax_open_mono h)

/-- An element of the open set found at the scan's reported index. -/
theorem sel_get (fs : List (Pos × ℕ)) (a : Pos) (rest : List Pos) :
    (a :: rest)[(selGo fs a 0 1 rest).2]? = some (selGo fs a 0 1 rest).1 := by
  rcases selGo_idx fs rest a 0 1 with h | ⟨j, hj, hget, hidx⟩
  · rw [h]
    simp
  · rw [hidx, Nat.add_comm 1 j]
    simpa using hget

/-- Preservation of the full invariant by one expansion step of the loop. -/
theorem expand_inv {m : Model} {s : AState} {cur : Pos} {idx : ℕ}
    (hI : Inv m s) (hget : s.openSet[idx]? = some cur)
    (hne : cur ≠ m.endPos) : Inv m (expand m cur idx s) := by
  have hcuro : cur ∈ s.openSet := List.mem_iff_getElem?.mpr ⟨idx, hget⟩
  obtain ⟨gc, hgc⟩ :=
    Option.isSome_iff_exists.mp (hI.openG cur hcuro)
  have hRc : Reach m cur := hI.openR cur hcuro
  have hI1 : MInv m (spliceState s idx cur) := by
    constructor <;> dsimp only [spliceState]
    · exact fun p hp => hI.openG p (mem_of_mem_eraseIdx hp)
    · intro p hp
      rcases hI.gOV p hp with hp' | hp'
      · by_cases hmem : p ∈ s.openSet.eraseIdx idx
        · exact Or.inl hmem
        · have := eq_of_not_mem_eraseIdx hp' hmem
          rw [hget] at this
          cases this
          exact Or.inr ((mem_addVisited_iff _ _ _).mpr (Or.inr rfl))
      · exact Or.inr ((mem_addVisited_iff _ _ _).mpr (Or.inl hp'))
    · exact hI.gs0
    · exact hI.cfKey
    · exact hI.cfG
    · exact hI.cfAll
    · exact hI.cfStart
    · intro hmem
      rcases (mem_addVisited_iff _ _ _).mp hmem with h | h
      · exact hI.visEnd h
      · exact hne h.symm
    · exact fun p hp => hI.openR p (mem_of_mem_eraseIdx hp)
    · intro p hp
      rcases (mem_addVisited_iff _ _ _).mp hp with h | h
      · exact hI.visR p h
      · exact h ▸ hRc
    · exact fun p hp => hI.openB p (mem_of_mem_eraseIdx hp)
    · intro p hp
      rcases (mem_addVisited_iff _ _ _).mp hp with h | h
      · exact hI.visB p h
      · exact h ▸ hI.openB cur hcuro
    · exact hI.gLB
    · exact hI.fG
    · exact hI.gBound
    · exact hI.lenCF
    · exact hI.gNodup
    · exact hI.gSub
    · exact (List.eraseIdx_sublist s.openSet idx).nodup hI.openNodup
  have hM2 : MInv m (expand m cur idx s) :=
    fold_pres (getNeighbors m cur) _ (fun n hn => hn) hRc hI1
  refine ⟨hM2, ?_⟩
  intro c hc n hn
  rw [expand, fold_visited_eq] at hc
  dsimp only [spliceState] at hc
  rcases (mem_addVisited_iff _ _ _).mp hc with h | h
  · have := hI.visN c h n hn
    exact fold_g_isSome this
  · subst h
    obtain ⟨v, -, hv⟩ := fold_neighbor_le m c (getNeighbors m c)
      (spliceState s idx c) gc hgc (fun q hq => hq) n hn
    rw [expand]
    simp [hv]

/-! ## The invariant holds initially and propagates through the loop -/

theorem initState_inv (m : Model) : Inv m (initState m) := by
  have hget : ∀ p, mapGet (initState m).gScore p =
      if m.startPos = p then some 0 else none := by
    intro p; rfl
  refine ⟨⟨?_, ?_, ?_, ?_, ?_, ?_, ?_, ?_, ?_, ?_, ?_, ?_, ?_, ?_, ?_, ?_,
    ?_, ?_, ?_⟩, ?_⟩
  · intro p hp
    simp only [initState, List.mem_singleton] at hp
    subst hp
    simp [hget]
  · intro p hp
    rw [hget] at hp
    split at hp
    · rename_i h
      exact Or.inl (by simp [initState, h])
    · cases hp
  · simp [hget]
  · intro n c h; cases h
  · intro n c h; cases h
  · intro p hp hps
    rw [hget] at hp
    split at hp
    · rename_i h; exact absurd h.symm hps
    · cases hp
  · rfl
  · simp [initState]
  · intro p hp
    simp only [initState, List.mem_singleton] at hp
    subst hp
    exact Reach.start
  · intro p hp; cases hp
  · intro p hp
    simp only [initState, List.mem_singleton] at hp
    exact Or.inl hp
  · intro p hp; cases hp
  · intro p v hp
    rw [hget] at hp
    split at hp
    · rename_i h
      cases hp
      rw [← h, mdist_eq_zero_iff.mpr rfl]
    · cases hp
  · intro p
    rw [hget]
    split
    · rename_i h
      subst h
      simp [initState, mapGet]
    · rename_i h
      simp [initState, mapGet, h]
  · intro p v hp
    rw [hget] at hp
    split at hp
    · cases hp; simp [initState]
    · cases hp
  · rfl
  · simp [initState, keysOf]
  · intro p hp
    rw [hget] at hp
    split at hp
    · rename_i h
      exact h ▸ startPos_mem_allCells m
    · cases hp
  · simp [initState]
  · intro c hc; cases hc

theorem loopFuel_succ (m : Model) (fuel : ℕ) (s : AState) :
    loopFuel m (fuel + 1) s =
      match s.openSet with
      | [] => some (none, s.visited)
      | a :: rest =>
        let sel := selGo s.fScore a 0 1 rest
        if sel.1 = m.endPos then
          some (some (reconPath s.cameFrom (s.cameFrom.length + 1) sel.1),
            s.visited)
        else loopFuel m fuel (expand m sel.1 sel.2 s) := rfl

/-- A completed run that reports no path ends in an invariant state whose
open set is exhausted. -/
theorem loopFuel_none_spec {m : Model} :
    ∀ (fuel : ℕ) (s : AState) (vis : List Pos), Inv m s →
      loopFuel m fuel s = some (none, vis) →
      ∃ s', Inv m s' ∧ s'.visited = vis ∧ s'.openSet = [] := by
  intro fuel
  induction fuel with
  | zero => intro s vis hI h; cases h
  | succ fuel ih =>
    intro s vis hI h
    rw [loopFuel_succ] at h
    cases ho : s.openSet with
    | nil =>
      rw [ho] at h
      simp only [Option.some_inj, Prod.mk.injEq] at h
      exact ⟨s, hI, h.2, ho⟩
    | cons a rest =>
      rw [ho] at h
      dsimp only at h
      by_cases hend : (selGo s.fScore a 0 1 rest).1 = m.endPos
      · rw [if_pos hend] at h
        simp at h
      · rw [if_neg hend] at h
        have hget : s.openSet[(selGo s.fScore a 0 1 rest).2]? =
            some (selGo s.fScore a 0 1 rest).1 := by
          rw [ho]; exact sel_get _ _ _
        exact ih _ vis (expand_inv hI hget hend) h

/-- A completed run that reports a path ends in an invariant state in
which the end cell sits in the open set with minimal fScore, and the
reported path is the reconstruction from the end cell. -/
theorem loopFuel_some_spec {m : Model} :
    ∀ (fuel : ℕ) (s : AState) (p vis : List Pos), Inv m s →
      loopFuel m fuel s = some (some p, vis) →
      ∃ s', Inv m s' ∧ s'.visited = vis ∧ m.endPos ∈ s'.openSet ∧
        p = reconPath s'.cameFrom (s'.cameFrom.length + 1) m.endPos ∧
        ∀ q ∈ s'.openSet,
          ltOpt (mapGet s'.fScore q) (mapGet s'.fScore m.endPos) = false := by
  intro fuel
  induction fuel with
  | zero => intro s p vis hI h; cases h
  | succ fuel ih =>
    intro s p vis hI h
    rw [loopFuel_succ] at h
    cases ho : s.openSet with
    | nil =>
      rw [ho] at h
      simp at h
    | cons a rest =>
      rw [ho] at h
      dsimp only at h
      by_cases hend : (selGo s.fScore a 0 1 rest).1 = m.endPos
      · rw [if_pos hend] at h
        simp only [Option.some_inj, Prod.mk.injEq] at h
        refine ⟨s, hI, h.2, ?_, ?_, ?_⟩
        · rw [ho, ← hend]
          rcases selGo_mem s.fScore rest a 0 1 with h' | h'
          · rw [h']
            exact List.mem_cons_self a rest
          · exact List.mem_cons_of_mem a h'
        · rw [← h.1, ← hend]
        · intro q hq
          rw [← hend]
          rw [ho] at hq
          rcases List.mem_cons.mp hq with hq | hq
          · exact selGo_min s.fScore rest a 0 1 q (Or.inl hq)
          · exact selGo_min s.fScore rest a 0 1 q (Or.inr hq)
      · rw [if_neg hend] at h
        have hget : s.openSet[(selGo s.fScore a 0 1 rest).2]? =
            some (selGo s.fScore a 0 1 rest).1 := by
          rw [ho]; exact sel_get _ _ _
        exact ih _ p vis (expand_inv hI hget hend) h

/-! ## Claims C5 and C10 -/

/-- C5: with an in-bounds, non-wall start, every visited cell is in
bounds and is not an obstacle. -/
theorem claim_c5_visited (m : Model) (hb : inB m m.startPos)
    (hw : ¬ isWall m m.startPos) :
    ∀ p ∈ (findPath m).2, inB m p ∧ ¬ isWall m p := by
  intro p hp
  unfold findPath at hp
  cases h : loopFuel m (fuelBound m) (initState m) with
  | none => rw [h] at hp; cases hp
  | some r =>
    rw [h] at hp
    simp only [Option.getD_some] at hp
    obtain ⟨po, vis⟩ := r
    have hvis : ∃ s', Inv m s' ∧ s'.visited = vis := by
      cases po with
      | none =>
        obtain ⟨s', hI, hveq, -⟩ := loopFuel_none_spec _ _ _ (initState_inv m) h
        exact ⟨s', hI, hveq⟩
      | some pl =>
        obtain ⟨s', hI, hveq, -, -, -⟩ :=
          loopFuel_some_spec _ _ _ _ (initState_inv m) h
        exact ⟨s', hI, hveq⟩
    obtain ⟨s', hI, hveq⟩ := hvis
    rcases hI.visB p (hveq ▸ hp) with h' | h'
    · exact h' ▸ ⟨hb, hw⟩
    · exact h'

/-- C5 witness: a concrete model with in-bounds non-wall start. -/
theorem claim_c5_visited_witness :
    (inB mc7 mc7.startPos ∧ ¬ isWall mc7 mc7.startPos) ∧
      ∀ p ∈ (findPath mc7).2, inB mc7 p ∧ ¬ isWall mc7 p :=
  ⟨⟨by decide, by decide⟩, claim_c5_visited mc7 (by decide) (by decide)⟩

/-- C10: when the search reports found, the end cell is not in the
visited set (it is selected from the open set and the function returns
before adding it). -/
theorem claim_c10_end_not_visited (m : Model) (pl : List Pos)
    (h : (findPath m).1 = some pl) : m.endPos ∉ (findPath m).2 := by
  unfold findPath at *
  cases hr : loopFuel m (fuelBound m) (initState m) with
  | none => rw [hr] at h; cases h
  | some r =>
    rw [hr] at h
    simp only [Option.getD_some] at h ⊢
    obtain ⟨po, vis⟩ := r
    simp only at h
    subst h
    obtain ⟨s', hI, hveq, -, -, -⟩ :=
      loopFuel_some_spec _ _ _ _ (initState_inv m) hr
    rw [← hveq]
    exact hI.visEnd

/-- C10 witness. -/
theorem claim_c10_witness :
    (findPath mc1).1 = some [(0, 1)] ∧ mc1.endPos ∉ (findPath mc1).2 :=
  ⟨by decide, claim_c10_end_not_visited mc1 [(0, 1)] (by decide)⟩

/-! ## Reconstruction lemmas -/

theorem recon_last (cf : List (Pos × Pos)) :
    ∀ (fuel : ℕ) (temp : Pos), reconPath cf fuel temp = [] ∨
      (reconPath cf fuel temp).getLast? = some temp := by
  intro fuel
  induction fuel with
  | zero => intro temp; exact Or.inl rfl
  | succ fuel ih =>
    intro temp
    unfold reconPath
    cases h : mapGet cf temp with
    | none => exact Or.inl rfl
    | some c =>
      exact Or.inr (by simp)

theorem recon_nil_iff (cf : List (Pos × Pos)) (fuel : ℕ) (temp : Pos) :
    reconPath cf (fuel + 1) temp = [] ↔ mapGet cf temp = none := by
  unfold reconPath
  cases h : mapGet cf temp with
  | none => simp
  | some c => simp

theorem recon_mem (cf : List (Pos × Pos)) :
    ∀ (fuel : ℕ) (temp q : Pos), q ∈ reconPath cf fuel temp →
      (mapGet cf q).isSome := by
  intro fuel
  induction fuel with
  | zero => intro temp q hq; cases hq
  | succ fuel ih =>
    intro temp q hq
    unfold reconPath at hq
    cases h : mapGet cf temp with
    | none => rw [h] at hq; cases hq
    | some c =>
      rw [h] at hq
      rcases List.mem_append.mp hq with hq | hq
      · exact ih c q hq
      · rw [List.mem_singleton.mp hq, h]
        rfl

theorem recon_chain (cf : List (Pos × Pos))
    (hadj : ∀ n c, mapGet cf n = some c → mdist c n = 1) :
    ∀ (fuel : ℕ) (temp : Pos),
      List.Chain' (fun x y => mdist x y = 1) (reconPath cf fuel temp) := by
  intro fuel
  induction fuel with
  | zero => intro temp; exact List.chain'_nil
  | succ fuel ih =>
    intro temp
    unfold reconPath
    cases h : mapGet cf temp with
    | none => exact List.chain'_nil
    | some c =>
      rw [List.chain'_append]
      refine ⟨ih c, List.chain'_singleton _, ?_⟩
      intro x hx y hy
      rcases recon_last cf fuel c with hnil | hlast
      · rw [hnil] at hx; cases hx
      · rw [hlast] at hx
        cases hx
        rw [List.head?_cons] at hy
        cases hy
        exact hadj temp c h

/-! ## Claims C1 and C3 -/

/-- C1 (amended): when found, the returned path ends at the end cell and,
prefixed with the start cell, forms a route from start to end — the
reconstruction omits start itself, so `path[0]` is in general not start;
when not found, no path is returned (the rendered path is empty). -/
theorem claim_c1_amended (m : Model) :
    ((findPath m).1 = none → (findPath m).1.getD [] = []) ∧
    ∀ p, (findPath m).1 = some p →
      (m.startPos :: p).head? = some m.startPos ∧
      (m.startPos :: p).getLast? = some m.endPos := by
  constructor
  · intro h; rw [h]; rfl
  intro p h
  refine ⟨rfl, ?_⟩
  unfold findPath at h
  cases hr : loopFuel m (fuelBound m) (initState m) with
  | none => rw [hr] at h; cases h
  | some r =>
    rw [hr] at h
    simp only [Option.getD_some] at h
    obtain ⟨po, vis⟩ := r
    simp only at h
    subst h
    obtain ⟨s', hI, -, hend, hrec, -⟩ :=
      loopFuel_some_spec _ _ _ _ (initState_inv m) hr
    cases hp : p with
    | nil =>
      -- an empty reconstruction means the end cell has no cameFrom
      -- link, which by the invariant forces end = start
      rw [hp] at hrec
      have hcf : mapGet s'.cameFrom m.endPos = none :=
        (recon_nil_iff s'.cameFrom s'.cameFrom.length m.endPos).mp hrec.symm
      have hsome : (mapGet s'.gScore m.endPos).isSome :=
        hI.openG m.endPos hend
      have : m.endPos = m.startPos := by
        by_contra hne
        have := hI.cfAll m.endPos hsome hne
        rw [hcf] at this
        cases this
      simp [this]
    | cons q t =>
      have hlast : p.getLast? = some m.endPos := by
        rcases recon_last s'.cameFrom (s'.cameFrom.length + 1) m.endPos
          with hnil | hl
        · rw [← hrec] at hnil
          rw [hnil] at hp
          cases hp
        · rw [← hrec] at hl
          exact hl
      rw [hp] at hlast
      rw [List.getLast?_cons_cons]
      exact hlast

/-- C1 witness: the found case at a concrete model. -/
theorem claim_c1_amended_witness :
    (mc1.startPos :: [((0 : ℤ), (1 : ℤ))]).head? = some mc1.startPos ∧
    (mc1.startPos :: [((0 : ℤ), (1 : ℤ))]).getLast? = some mc1.endPos :=
  (claim_c1_amended mc1).2 [(0, 1)] (by decide)

/-- C3: every consecutive pair of cells in a returned path is 4-adjacent
(Manhattan distance 1) and no cell of the path is an obstacle. -/
theorem claim_c3_path (m : Model) (p : List Pos)
    (h : (findPath m).1 = some p) :
    List.Chain' (fun x y => mdist x y = 1) p ∧ ∀ q ∈ p, ¬ isWall m q := by
  unfold findPath at h
  cases hr : loopFuel m (fuelBound m) (initState m) with
  | none => rw [hr] at h; cases h
  | some r =>
    rw [hr] at h
    simp only [Option.getD_some] at h
    obtain ⟨po, vis⟩ := r
    simp only at h
    subst h
    obtain ⟨s', hI, -, -, hrec, -⟩ :=
      loopFuel_some_spec _ _ _ _ (initState_inv m) hr
    rw [hrec]
    constructor
    · exact recon_chain s'.cameFrom
        (fun n c hc => (getNeighbors_sound (hI.cfKey n c hc)).1) _ _
    · intro q hq
      obtain ⟨c, hc⟩ := Option.isSome_iff_exists.mp
        (recon_mem s'.cameFrom _ _ q hq)
      exact (getNeighbors_sound (hI.cfKey q c hc)).2.2

/-- C3 witness. -/
theorem claim_c3_path_witness :
    List.Chain' (fun x y => mdist x y = 1) [((0 : ℤ), (1 : ℤ))] ∧
    ∀ q ∈ [((0 : ℤ), (1 : ℤ))], ¬ isWall mc1 q :=
  claim_c3_path mc1 [(0, 1)] (by decide)

/-! ## Termination: a measure that bounds the loop's iteration count

Each iteration either scores a brand-new cell (at most `|allCells|`
times), or strictly lowers some recorded gScore (the scores are bounded
by the number of recorded cells), or adds nothing and only shrinks the
open set.  Flattening the lexicographic triple with the invariant bounds
gives a concrete fuel. -/

/-- Cells of `allCells` not yet scored. -/
def measA (m : Model) (s : AState) : ℕ :=
  (allCells m \ (keysOf s.gScore).toFinset).card

/-- Lexicographic decrease of the first two components. -/
def MeasLt (m : Model) (s' s : AState) : Prop :=
  measA m s' < measA m s ∨
    (keysOf s'.gScore = keysOf s.gScore ∧ sumVals s'.gScore < sumVals s.gScore)

theorem measLt_trans {m : Model} {a b c : AState} (h1 : MeasLt m c b)
    (h2 : MeasLt m b a) : MeasLt m c a := by
  rcases h1 with h1 | ⟨hk1, hs1⟩ <;> rcases h2 with h2 | ⟨hk2, hs2⟩
  · exact Or.inl (lt_trans h1 h2)
  · refine Or.inl ?_
    unfold measA at *
    rw [hk2] at h1
    exact h1
  · refine Or.inl ?_
    unfold measA at *
    rw [← hk1] at h2
    exact h2
  · exact Or.inr ⟨hk1.trans hk2, lt_trans hs1 hs2⟩

theorem relax_tri {m : Model} {cur : Pos} (st : AState) {n : Pos}
    (hn : n ∈ getNeighbors m cur) :
    relax m cur st n = st ∨ MeasLt m (relax m cur st n) st := by
  rcases relax_cases m cur st n with heq | ⟨gc, hgc, hupd, heq⟩
  · exact Or.inl heq
  · rcases hupd with h0 | ⟨v, hv, hlt⟩
    · refine Or.inr (Or.inl ?_)
      rw [heq]
      unfold measA
      dsimp only
      rw [keysOf_mapSet_of_new _ _ _ h0]
      have hmemA : n ∈ allCells m \ (keysOf st.gScore).toFinset := by
        refine Finset.mem_sdiff.mpr
          ⟨mem_allCells_of_inB (getNeighbors_sound hn).2.1, ?_⟩
        intro hmem
        have := (mapGet_isSome_iff st.gScore n).mpr (List.mem_toFinset.mp hmem)
        rw [h0] at this
        cases this
      have hset : allCells m \ (keysOf st.gScore ++ [n]).toFinset =
          (allCells m \ (keysOf st.gScore).toFinset).erase n := by
        ext q
        simp [List.toFinset_append, Finset.mem_erase]
        tauto
      rw [hset]
      exact Finset.card_erase_lt_of_mem hmemA
    · refine Or.inr (Or.inr ⟨?_, ?_⟩)
      · rw [heq]
        exact keysOf_mapSet_of_has _ _ _ (by simp [hv])
      · rw [heq]
        dsimp only
        have := sumVals_mapSet_of_has st.gScore n (gc + 1) v hv
        omega

theorem fold_tri {m : Model} {cur : Pos} :
    ∀ (ns : List Pos) (st : AState), (∀ n ∈ ns, n ∈ getNeighbors m cur) →
      ns.foldl (relax m cur) st = st ∨
        MeasLt m (ns.foldl (relax m cur) st) st := by
  intro ns
  induction ns with
  | nil => intro st _; exact Or.inl rfl
  | cons n t ih =>
    intro st hns
    rw [List.foldl_cons]
    have hstep := relax_tri st (hns n (List.mem_cons_self n t))
    have hrest := ih (relax m cur st n)
      (fun q hq => hns q (List.mem_cons_of_mem n hq))
    rcases hstep with hstep | hstep
    · rw [hstep] at hrest ⊢
      exact hrest
    · rcases hrest with hrest | hrest
      · rw [hrest]
        exact Or.inr hstep
      · exact Or.inr (measLt_trans hrest hstep)

/-- Number of candidate cells; always positive. -/
def cellCount (m : Model) : ℕ := (allCells m).card

theorem cellCount_pos (m : Model) : 1 ≤ cellCount m :=
  Finset.card_pos.mpr ⟨m.startPos, startPos_mem_allCells m⟩

/-- The flattened measure. -/
def phiMeas (m : Model) (s : AState) : ℕ :=
  measA m s * ((cellCount m * cellCount m + 1) * (cellCount m + 1)) +
    sumVals s.gScore * (cellCount m + 1) + s.openSet.length

theorem gScore_length_le {m : Model} {s : AState} (hI : MInv m s) :
    s.gScore.length ≤ cellCount m := by
  have h1 : (keysOf s.gScore).toFinset ⊆ allCells m := by
    intro p hp
    exact hI.gSub p ((mapGet_isSome_iff s.gScore p).mpr (List.mem_toFinset.mp hp))
  have h2 : (keysOf s.gScore).toFinset.card = (keysOf s.gScore).length :=
    List.toFinset_card_of_nodup hI.gNodup
  have h3 : (keysOf s.gScore).length = s.gScore.length := by simp [keysOf]
  have := Finset.card_le_card h1
  unfold cellCount
  omega

/-- With nodup keys, the stored value of a present entry is what `get`
returns. -/
theorem mapGet_of_mem_nodup :
    ∀ (l : List (Pos × ℕ)) (e : Pos × ℕ), (keysOf l).Nodup → e ∈ l →
      mapGet l e.1 = some e.2 := by
  intro l
  induction l with
  | nil => intro e _ he; cases he
  | cons f t ih =>
    intro e hnd he
    simp only [keysOf, List.map_cons, List.nodup_cons] at hnd
    rcases List.mem_cons.mp he with he | he
    · subst he; simp [mapGet]
    · have hne : f.1 ≠ e.1 := by
        intro hfe
        exact hnd.1 (by rw [hfe]; exact List.mem_map.mpr ⟨e, he, rfl⟩)
      simp only [mapGet, if_neg hne]
      exact ih e (by simpa [keysOf] using hnd.2) he

theorem sumVals_le {m : Model} {s : AState} (hI : MInv m s) :
    sumVals s.gScore ≤ cellCount m * cellCount m := by
  have hlen := gScore_length_le hI
  have hval : ∀ v ∈ s.gScore.map Prod.snd, v ≤ cellCount m - 1 := by
    intro v hv
    obtain ⟨e, he, hev⟩ := List.mem_map.mp hv
    have hsome : mapGet s.gScore e.1 = some e.2 :=
      mapGet_of_mem_nodup s.gScore e hI.gNodup he
    have hb := hI.gBound e.1 e.2 hsome
    have := cellCount_pos m
    omega
  have hsum := List.sum_le_card_nsmul (s.gScore.map Prod.snd)
    (cellCount m - 1) hval
  have hN := cellCount_pos m
  unfold sumVals
  simp only [List.length_map, smul_eq_mul] at hsum
  have : s.gScore.length * (cellCount m - 1) ≤
      cellCount m * (cellCount m - 1) :=
    Nat.mul_le_mul_right _ hlen
  calc (s.gScore.map Prod.snd).sum ≤ s.gScore.length * (cellCount m - 1) := hsum
    _ ≤ cellCount m * (cellCount m - 1) := this
    _ ≤ cellCount m * cellCount m := Nat.mul_le_mul_left _ (by omega)

theorem openSet_length_le {m : Model} {s : AState} (hI : MInv m s) :
    s.openSet.length ≤ cellCount m := by
  have h1 : s.openSet.toFinset ⊆ allCells m := by
    intro p hp
    exact hI.gSub p (hI.openG p (List.mem_toFinset.mp hp))
  have h2 : s.openSet.toFinset.card = s.openSet.length :=
    List.toFinset_card_of_nodup hI.openNodup
  have := Finset.card_le_card h1
  unfold cellCount
  omega

theorem measA_le (m : Model) (s : AState) : measA m s ≤ cellCount m :=
  Finset.card_le_card (Finset.sdiff_subset)

/-- Each non-returning loop iteration strictly decreases the flattened
measure. -/
theorem expand_phi_lt {m : Model} {s : AState} {cur : Pos} {idx : ℕ}
    (hI : Inv m s) (hget : s.openSet[idx]? = some cur)
    (hne : cur ≠ m.endPos) : phiMeas m (expand m cur idx s) < phiMeas m s := by
  have hidx : idx < s.openSet.length := by
    by_contra hge
    push_neg at hge
    rw [List.getElem?_eq_none_iff.mpr hge] at hget
    cases hget
  have hI2 : Inv m (expand m cur idx s) := expand_inv hI hget hne
  have hlen1 : (s.openSet.eraseIdx idx).length = s.openSet.length - 1 := by
    rw [List.length_eraseIdx]
    simp [hidx]
  have hA1 : measA m (spliceState s idx cur) = measA m s := rfl
  have hB1 : sumVals (spliceState s idx cur).gScore = sumVals s.gScore := rfl
  have hexp : expand m cur idx s =
      (getNeighbors m cur).foldl (relax m cur) (spliceState s idx cur) := rfl
  have hN := cellCount_pos m
  rcases fold_tri (getNeighbors m cur) (spliceState s idx cur)
      (fun q hq => hq) with heq | hlt
  · rw [hexp, heq]
    unfold phiMeas
    rw [hA1, hB1]
    have : (spliceState s idx cur).openSet.length = s.openSet.length - 1 := by
      dsimp only [spliceState]
      exact hlen1
    rw [this]
    omega
  · rcases hlt with hlt | ⟨hkeq, hslt⟩
    · have hAe : measA m (expand m cur idx s) < measA m s := by
        rw [hexp]
        rw [hA1] at hlt
        exact hlt
      have hBe : sumVals (expand m cur idx s).gScore ≤
          cellCount m * cellCount m := sumVals_le hI2.toMInv
      have hCe : (expand m cur idx s).openSet.length ≤ cellCount m :=
        openSet_length_le hI2.toMInv
      unfold phiMeas
      have hK : sumVals (expand m cur idx s).gScore * (cellCount m + 1) +
          (expand m cur idx s).openSet.length <
          (cellCount m * cellCount m + 1) * (cellCount m + 1) := by
        have h1 : sumVals (expand m cur idx s).gScore * (cellCount m + 1) ≤
            cellCount m * cellCount m * (cellCount m + 1) :=
          Nat.mul_le_mul_right _ hBe
        have h2 : (cellCount m * cellCount m + 1) * (cellCount m + 1) =
            cellCount m * cellCount m * (cellCount m + 1) +
              (cellCount m + 1) := by ring
        omega
      have hstep : measA m (expand m cur idx s) *
            ((cellCount m * cellCount m + 1) * (cellCount m + 1)) +
            ((cellCount m * cellCount m + 1) * (cellCount m + 1)) ≤
          measA m s * ((cellCount m * cellCount m + 1) * (cellCount m + 1)) := by
        have : measA m (expand m cur idx s) + 1 ≤ measA m s := hAe
        calc measA m (expand m cur idx s) *
              ((cellCount m * cellCount m + 1) * (cellCount m + 1)) +
              ((cellCount m * cellCount m + 1) * (cellCount m + 1))
            = (measA m (expand m cur idx s) + 1) *
              ((cellCount m * cellCount m + 1) * (cellCount m + 1)) := by ring
          _ ≤ measA m s *
              ((cellCount m * cellCount m + 1) * (cellCount m + 1)) :=
            Nat.mul_le_mul_right _ this
      omega
    · have hAe : measA m (expand m cur idx s) = measA m s := by
        unfold measA
        rw [hexp, hkeq]
        rfl
      have hBe : sumVals (expand m cur idx s).gScore < sumVals s.gScore := by
        rw [hexp]
        rw [hB1] at hslt
        exact hslt
      have hCe : (expand m cur idx s).openSet.length ≤ cellCount m :=
        openSet_length_le hI2.toMInv
      unfold phiMeas
      rw [hAe]
      have hstep : sumVals (expand m cur idx s).gScore * (cellCount m + 1) +
            (cellCount m + 1) ≤ sumVals s.gScore * (cellCount m + 1) := by
        have h1 : sumVals (expand m cur idx s).gScore + 1 ≤ sumVals s.gScore :=
          hBe
        calc sumVals (expand m cur idx s).gScore * (cellCount m + 1) +
              (cellCount m + 1)
            = (sumVals (expand m cur idx s).gScore + 1) * (cellCount m + 1) := by
              ring
          _ ≤ sumVals s.gScore * (cellCount m + 1) :=
            Nat.mul_le_mul_right _ h1
      omega

/-- With fuel above the measure, the loop completes. -/
theorem loopFuel_total {m : Model} :
    ∀ (fuel : ℕ) (s : AState), Inv m s → phiMeas m s < fuel →
      (loopFuel m fuel s).isSome := by
  intro fuel
  induction fuel with
  | zero => intro s _ h; omega
  | succ fuel ih =>
    intro s hI hphi
    rw [loopFuel_succ]
    cases ho : s.openSet with
    | nil => rfl
    | cons a rest =>
      dsimp only
      by_cases hend : (selGo s.fScore a 0 1 rest).1 = m.endPos
      · rw [if_pos hend]; rfl
      · rw [if_neg hend]
        have hget : s.openSet[(selGo s.fScore a 0 1 rest).2]? =
            some (selGo s.fScore a 0 1 rest).1 := by
          rw [ho]; exact sel_get _ _ _
        have hdec := expand_phi_lt hI hget hend
        exact ih _ (expand_inv hI hget hend) (by omega)

/-- The run always completes within the computed fuel: the claim-neutral
helper behind C9, C4 and C2. -/
theorem findPath_complete (m : Model) :
    ∃ r, loopFuel m (fuelBound m) (initState m) = some r ∧ findPath m = r := by
  have hN := cellCount_pos m
  have hsum : sumVals (initState m).gScore = 0 := rfl
  have hopen : (initState m).openSet.length = 1 := rfl
  have hphi : phiMeas m (initState m) < fuelBound m := by
    have hce : fuelBound m = (cellCount m + 1) *
        (cellCount m * cellCount m + 1) * (cellCount m + 1) := rfl
    rw [hce]
    unfold phiMeas
    rw [hsum, hopen]
    have hA := measA_le m (initState m)
    have hK : 2 ≤ (cellCount m * cellCount m + 1) * (cellCount m + 1) := by
      have h1 : 1 ≤ cellCount m * cellCount m + 1 := by omega
      have h2 : 2 ≤ cellCount m + 1 := by omega
      calc 2 = 1 * 2 := by omega
        _ ≤ (cellCount m * cellCount m + 1) * (cellCount m + 1) :=
          Nat.mul_le_mul h1 h2
    have heq : (cellCount m + 1) * (cellCount m * cellCount m + 1) *
        (cellCount m + 1) = (cellCount m + 1) *
        ((cellCount m * cellCount m + 1) * (cellCount m + 1)) := by ring
    rw [heq]
    have hstep : measA m (initState m) *
          ((cellCount m * cellCount m + 1) * (cellCount m + 1)) ≤
        cellCount m * ((cellCount m * cellCount m + 1) * (cellCount m + 1)) :=
      Nat.mul_le_mul_right _ hA
    have hsucc : (cellCount m + 1) *
          ((cellCount m * cellCount m + 1) * (cellCount m + 1)) =
        cellCount m * ((cellCount m * cellCount m + 1) * (cellCount m + 1)) +
          ((cellCount m * cellCount m + 1) * (cellCount m + 1)) := by ring
    omega
  have hS := loopFuel_total (fuelBound m) (initState m) (initState_inv m) hphi
  obtain ⟨r, hr⟩ := Option.isSome_iff_exists.mp hS
  refine ⟨r, hr, ?_⟩
  unfold findPath
  rw [hr]
  rfl

/-- C9: a single invocation of the search terminates on every finite
model: with the computed fuel the while-loop runs to completion (either
reaching end or exhausting the open set), and `findPath` is its result. -/
theorem claim_c9_terminates (m : Model) :
    ∃ r, loopFuel m (fuelBound m) (initState m) = some r ∧ findPath m = r :=
  findPath_complete m

/-! ## Claim C4: exhausted search explores exactly the reachable cells -/

/-- C4: when no obstacle-free route reaches the end cell, the search
reports found=false and its visited set is exactly the set of cells
reachable from start. -/
theorem claim_c4_exhaustive (m : Model) (hnr : ¬ Reach m m.endPos) :
    (findPath m).1 = none ∧ ∀ p, p ∈ (findPath m).2 ↔ Reach m p := by
  obtain ⟨r, hr, hfp⟩ := findPath_complete m
  obtain ⟨po, vis⟩ := r
  cases po with
  | some pl =>
    obtain ⟨s', hI, -, hend, -, -⟩ :=
      loopFuel_some_spec _ _ _ _ (initState_inv m) hr
    exact absurd (hI.openR m.endPos hend) hnr
  | none =>
    obtain ⟨s', hI, hveq, hopen⟩ :=
      loopFuel_none_spec _ _ _ (initState_inv m) hr
    rw [hfp]
    refine ⟨rfl, ?_⟩
    intro p
    constructor
    · intro hp
      exact hI.visR p (hveq ▸ hp)
    · intro hp
      show p ∈ vis
      rw [← hveq]
      induction hp with
      | start =>
        have h0 : (mapGet s'.gScore m.startPos).isSome := by simp [hI.gs0]
        rcases hI.gOV _ h0 with ho | hv
        · rw [hopen] at ho; cases ho
        · exact hv
      | step hc hn ih =>
        rename_i c n
        have hsome := hI.visN c ih n hn
        rcases hI.gOV n hsome with ho | hv
        · rw [hopen] at ho; cases ho
        · exact hv

/-- A 3×3 grid whose end cell `(2,2)` is walled off by `(1,2)` and
`(2,1)`. -/
def mc4 : Model :=
  { rows := 3, cols := 3, walls := {(1, 2), (2, 1)}, startPos := (0, 0),
    endPos := (2, 2) }

/-- The cells of `mc4` reachable from its start. -/
def mc4Reachable : List Pos := [(0, 0), (0, 1), (0, 2), (1, 0), (1, 1), (2, 0)]

theorem mc4_not_reach : ¬ Reach mc4 mc4.endPos := by
  intro h
  have hS : ∀ p, Reach mc4 p → p ∈ mc4Reachable := by
    intro p hp
    induction hp with
    | start => decide
    | step hc hn ih =>
      rename_i c n
      have hclosed : ∀ c ∈ mc4Reachable, ∀ n ∈ getNeighbors mc4 c,
          n ∈ mc4Reachable := by decide
      exact hclosed c ih n hn
  exact absurd (hS _ h) (by decide)

/-- C4 witness: the hypothesis and conclusion at the concrete model. -/
theorem claim_c4_witness :
    (¬ Reach mc4 mc4.endPos) ∧ (findPath mc4).1 = none ∧
      ∀ p, p ∈ (findPath mc4).2 ↔ Reach mc4 p :=
  ⟨mc4_not_reach, claim_c4_exhaustive mc4 mc4_not_reach⟩

/-! ## Claim C6: determinism and the tie-break policy -/

theorem ltOpt_some_some (x y : ℕ) :
    ltOpt (some x) (some y) = decide (x < y) := rfl

/-- Everything scanned strictly before the selected index has a strictly
larger fScore: the linear scan keeps the first-encountered minimum. -/
theorem selGo_before (fs : List (Pos × ℕ)) :
    ∀ (l : List Pos) (cur : Pos) (ci i : ℕ),
      (∀ p, p = cur ∨ p ∈ l → (mapGet fs p).isSome) → ci < i →
      ((selGo fs cur ci i l).2 ≠ ci →
        ltOpt (mapGet fs (selGo fs cur ci i l).1) (mapGet fs cur) = true) ∧
      (∀ j q, l[j]? = some q → i + j < (selGo fs cur ci i l).2 →
        ltOpt (mapGet fs (selGo fs cur ci i l).1) (mapGet fs q) = true) := by
  intro l
  induction l with
  | nil =>
    intro cur ci i hsome hci
    rw [selGo_nil]
    refine ⟨fun hne => absurd rfl hne, ?_⟩
    intro j q hq
    simp at hq
  | cons p t ih =>
    intro cur ci i hsome hci
    by_cases h : ltOpt (mapGet fs p) (mapGet fs cur) = true
    · rw [selGo_cons, if_pos h]
      have hsome' : ∀ q, q = p ∨ q ∈ t → (mapGet fs q).isSome := by
        intro q hq
        rcases hq with hq | hq
        · exact hsome q (Or.inr (hq ▸ List.mem_cons_self p t))
        · exact hsome q (Or.inr (List.mem_cons_of_mem p hq))
      obtain ⟨iha, ihb⟩ := ih p i (i + 1) hsome' (by omega)
      constructor
      · intro _
        rcases selGo_idx fs t p i (i + 1) with hsel | ⟨j, hj, hget, hidx⟩
        · rw [hsel]
          exact h
        · have hne : (selGo fs p i (i + 1) t).2 ≠ i := by omega
          exact ltOpt_trans (iha hne) h
      · intro j q hq hlt2
        cases j with
        | zero =>
          simp only [List.getElem?_cons_zero, Option.some_inj] at hq
          subst hq
          have hne : (selGo fs p i (i + 1) t).2 ≠ i := by omega
          exact iha hne
        | succ k =>
          have hq' : t[k]? = some q := by simpa using hq
          exact ihb k q hq' (by omega)
    · rw [selGo_cons, if_neg h]
      have hsome' : ∀ q, q = cur ∨ q ∈ t → (mapGet fs q).isSome := by
        intro q hq
        rcases hq with hq | hq
        · exact hsome q (Or.inl hq)
        · exact hsome q (Or.inr (List.mem_cons_of_mem p hq))
      obtain ⟨iha, ihb⟩ := ih cur ci (i + 1) hsome' (by omega)
      refine ⟨iha, ?_⟩
      intro j q hq hlt2
      cases j with
      | zero =>
        simp only [List.getElem?_cons_zero, Option.some_inj] at hq
        subst hq
        have hne : (selGo fs cur ci (i + 1) t).2 ≠ ci := by
          rcases selGo_idx fs t cur ci (i + 1) with hsel | ⟨j', hj', hget', hidx'⟩
          · rw [hsel] at hlt2
            simp at hlt2
            omega
          · omega
        have hstrict := iha hne
        obtain ⟨vq, hvq⟩ := Option.isSome_iff_exists.mp
          (hsome p (Or.inr (List.mem_cons_self p t)))
        obtain ⟨vc, hvc⟩ := Option.isSome_iff_exists.mp (hsome cur (Or.inl rfl))
        obtain ⟨vs, hvs⟩ : ∃ v,
            mapGet fs (selGo fs cur ci (i + 1) t).1 = some v := by
          rcases selGo_mem fs t cur ci (i + 1) with hm | hm
          · rw [hm]
            exact Option.isSome_iff_exists.mp (hsome cur (Or.inl rfl))
          · exact Option.isSome_iff_exists.mp
              (hsome _ (Or.inr (List.mem_cons_of_mem p hm)))
        rw [hvq, hvc] at h
        rw [hvs, hvc] at hstrict
        rw [hvs, hvq]
        rw [ltOpt_some_some] at *
        simp only [decide_eq_true_eq] at *
        omega
      | succ k =>
        have hq' : t[k]? = some q := by simpa using hq
        exact ihb k q hq' (by omega)

/-- C6: the search is a pure function of the model — running it twice
yields identical results — and the open-set scan resolves fScore ties in
favor of the first-encountered minimum: nothing in the scanned list beats
the selected cell, and everything before the selected index is strictly
worse. -/
theorem claim_c6_deterministic (m : Model) :
    findPath m = findPath m ∧
    ∀ (fs : List (Pos × ℕ)) (a : Pos) (rest : List Pos),
      (∀ p, p = a ∨ p ∈ rest → (mapGet fs p).isSome) →
      (∀ q, q = a ∨ q ∈ rest →
        ltOpt (mapGet fs q) (mapGet fs (selGo fs a 0 1 rest).1) = false) ∧
      ∀ j q, (a :: rest)[j]? = some q → j < (selGo fs a 0 1 rest).2 →
        ltOpt (mapGet fs (selGo fs a 0 1 rest).1) (mapGet fs q) = true := by
  refine ⟨rfl, ?_⟩
  intro fs a rest hsome
  obtain ⟨hbefore_a, hbefore⟩ := selGo_before fs rest a 0 1 hsome (by omega)
  constructor
  · exact fun q hq => selGo_min fs rest a 0 1 q hq
  · intro j q hq hlt
    cases j with
    | zero =>
      simp only [List.getElem?_cons_zero, Option.some_inj] at hq
      subst hq
      exact hbefore_a (by omega)
    | succ k =>
      have hq' : rest[k]? = some q := by simpa using hq
      exact hbefore k q hq' (by omega)

/-- A concrete fScore table with a tie between the second and third
cells. -/
def fs6 : List (Pos × ℕ) := [((0, 0), 5), ((0, 1), 3), ((0, 2), 3)]

theorem fs6_some :
    ∀ p, p = ((0 : ℤ), (0 : ℤ)) ∨ p ∈ ([(0, 1), (0, 2)] : List Pos) →
      (mapGet fs6 p).isSome := by
  intro p hp
  rcases hp with hp | hp
  · subst hp; decide
  · simp only [List.mem_cons, List.not_mem_nil, or_false] at hp
    rcases hp with hp | hp <;> subst hp <;> decide

/-- C6 witness: on `fs6` the scan selects `(0,1)` — the first of the two
tied minima — and the cell before it is strictly worse. -/
theorem claim_c6_witness :
    findPath mc4 = findPath mc4 ∧
    (selGo fs6 (0, 0) 0 1 [(0, 1), (0, 2)]).1 = ((0 : ℤ), (1 : ℤ)) ∧
    ltOpt (mapGet fs6 (0, 2)) (mapGet fs6 (selGo fs6 (0, 0) 0 1 [(0, 1), (0, 2)]).1) = false ∧
    ltOpt (mapGet fs6 (selGo fs6 (0, 0) 0 1 [(0, 1), (0, 2)]).1) (mapGet fs6 (0, 0)) = true :=
  ⟨(claim_c6_deterministic mc4).1, by decide,
   (((claim_c6_deterministic mc4).2 fs6 (0, 0) [(0, 1), (0, 2)] fs6_some).1
     (0, 2) (Or.inr (by decide))),
   (((claim_c6_deterministic mc4).2 fs6 (0, 0) [(0, 1), (0, 2)] fs6_some).2
     0 (0, 0) (by decide) (by decide))⟩

/-! ## Claim C2: on wall-free grids the found path has Manhattan length

On a grid without obstacles the Manhattan heuristic is exact, so every
expanded cell carries an exact gScore and the open set always holds a
cell that lies on an optimal route with an exact gScore.  These are the
extra invariants `EInv`. -/

structure EInv (m : Model) (s : AState) : Prop where
  visExact : ∀ c ∈ s.visited, mapGet s.gScore c = some (mdist m.startPos c)
  visNB : ∀ c ∈ s.visited, ∀ n ∈ getNeighbors m c,
    ∃ v, mapGet s.gScore n = some v ∧ v ≤ mdist m.startPos c + 1
  ewitness : ∃ w, w ∈ s.openSet ∧
    mapGet s.gScore w = some (mdist m.startPos w) ∧
    mdist m.startPos w + mdist w m.endPos = mdist m.startPos m.endPos

theorem fold_g_stable {m : Model} {cur : Pos} :
    ∀ (ns : List Pos) (st : AState) (q : Pos), (∀ n ∈ ns, q ≠ n) →
      mapGet (ns.foldl (relax m cur) st).gScore q = mapGet st.gScore q := by
  intro ns
  induction ns with
  | nil => intro st q _; rfl
  | cons n t ih =>
    intro st q hq
    rw [List.foldl_cons, ih _ q (fun n' hn' => hq n' (List.mem_cons_of_mem n hn')),
      relax_g_stable st q (hq n (List.mem_cons_self n t))]

/-- The selected cell of an open set holding an exact on-route witness is
itself exact and on-route: its fScore is at most the witness's, which
equals the true start-to-end distance, while the admissible heuristic
bounds it from below. -/
theorem sel_exact (m : Model) (s : AState) (a : Pos) (rest : List Pos)
    (hI : Inv m s) (ho : s.openSet = a :: rest)
    (hwit : ∃ w, w ∈ s.openSet ∧
      mapGet s.gScore w = some (mdist m.startPos w) ∧
      mdist m.startPos w + mdist w m.endPos = mdist m.startPos m.endPos) :
    mapGet s.gScore (selGo s.fScore a 0 1 rest).1 =
      some (mdist m.startPos (selGo s.fScore a 0 1 rest).1) ∧
    mdist m.startPos (selGo s.fScore a 0 1 rest).1 +
      mdist (selGo s.fScore a 0 1 rest).1 m.endPos =
      mdist m.startPos m.endPos := by
  obtain ⟨w, hwo, hwg, hwopt⟩ := hwit
  have hselmem : (selGo s.fScore a 0 1 rest).1 ∈ s.openSet := by
    rw [ho]
    rcases selGo_mem s.fScore rest a 0 1 with h | h
    · rw [h]; exact List.mem_cons_self a rest
    · exact List.mem_cons_of_mem a h
  obtain ⟨gs, hgs⟩ := Option.isSome_iff_exists.mp (hI.openG _ hselmem)
  have hfsel : mapGet s.fScore (selGo s.fScore a 0 1 rest).1 =
      some (gs + mdist (selGo s.fScore a 0 1 rest).1 m.endPos) := by
    rw [hI.fG, hgs]
    rfl
  have hfw : mapGet s.fScore w =
      some (mdist m.startPos w + mdist w m.endPos) := by
    rw [hI.fG, hwg]
    rfl
  have hmin : ltOpt (mapGet s.fScore w)
      (mapGet s.fScore (selGo s.fScore a 0 1 rest).1) = false := by
    rw [ho] at hwo
    rcases List.mem_cons.mp hwo with hw' | hw'
    · exact selGo_min s.fScore rest a 0 1 w (Or.inl hw')
    · exact selGo_min s.fScore rest a 0 1 w (Or.inr hw')
  rw [hfw, hfsel, ltOpt_some_some] at hmin
  simp only [decide_eq_false_iff_not, not_lt] at hmin
  have hlb := hI.gLB _ gs hgs
  have htr := mdist_triangle m.startPos (selGo s.fScore a 0 1 rest).1 m.endPos
  have hg : gs = mdist m.startPos (selGo s.fScore a 0 1 rest).1 := by omega
  exact ⟨by rw [hgs, hg], by omega⟩

/-- On a wall-free grid, a non-end in-bounds cell has a neighbor one
step closer to the end. -/
theorem toward_end (m : Model) (hw : m.walls = ∅) (hbe : inB m m.endPos)
    (c : Pos) (hbc : inB m c) (hne : c ≠ m.endPos) :
    ∃ n ∈ getNeighbors m c, mdist n m.endPos + 1 = mdist c m.endPos := by
  obtain ⟨hb1, hb2, hb3, hb4⟩ := hbc
  obtain ⟨he1, he2, he3, he4⟩ := hbe
  have hwall : ∀ q : Pos, ¬ isWall m q := by
    intro q hq
    rw [isWall, hw] at hq
    cases hq
  by_cases hr : c.1 = m.endPos.1
  · have hc : c.2 ≠ m.endPos.2 := by
      intro h
      exact hne (Prod.ext hr h)
    by_cases hlt : c.2 < m.endPos.2
    · refine ⟨(c.1 + 0, c.2 + 1), getNeighbors_complete c (0, 1)
        (by simp [directions]) ⟨by omega, by omega, by omega, by omega⟩
        (hwall _), ?_⟩
      unfold mdist
      simp only
      omega
    · refine ⟨(c.1 + 0, c.2 + -1), getNeighbors_complete c (0, -1)
        (by simp [directions]) ⟨by omega, by omega, by omega, by omega⟩
        (hwall _), ?_⟩
      unfold mdist
      simp only
      omega
  · by_cases hlt : c.1 < m.endPos.1
    · refine ⟨(c.1 + 1, c.2 + 0), getNeighbors_complete c (1, 0)
        (by simp [directions]) ⟨by omega, by omega, by omega, by omega⟩
        (hwall _), ?_⟩
      unfold mdist
      simp only
      omega
    · refine ⟨(c.1 + -1, c.2 + 0), getNeighbors_complete c (-1, 0)
        (by simp [directions]) ⟨by omega, by omega, by omega, by omega⟩
        (hwall _), ?_⟩
      unfold mdist
      simp only
      omega

/-- Walking from an exactly-scored visited cell toward the end always
finds an exactly-scored on-route cell still in the open set: visited
cells have scored neighbors, the end cell is never visited, and the walk
shortens the remaining distance each step. -/
theorem ewalk (m : Model) (s : AState) (hw : m.walls = ∅)
    (hbs : inB m m.startPos) (hbe : inB m m.endPos) (hI : Inv m s)
    (hNB : ∀ c ∈ s.visited, ∀ n ∈ getNeighbors m c,
      ∃ v, mapGet s.gScore n = some v ∧ v ≤ mdist m.startPos c + 1) :
    ∀ (k : ℕ) (c : Pos), mdist c m.endPos ≤ k → c ∈ s.visited →
      mdist m.startPos c + mdist c m.endPos = mdist m.startPos m.endPos →
      ∃ w, w ∈ s.openSet ∧
        mapGet s.gScore w = some (mdist m.startPos w) ∧
        mdist m.startPos w + mdist w m.endPos = mdist m.startPos m.endPos := by
  intro k
  induction k with
  | zero =>
    intro c hck hcv _
    have : c = m.endPos := mdist_eq_zero_iff.mp (by omega)
    exact absurd (this ▸ hcv) hI.visEnd
  | succ k ih =>
    intro c hck hcv hopt
    have hcne : c ≠ m.endPos := fun h => hI.visEnd (h ▸ hcv)
    have hbc : inB m c := by
      rcases hI.visB c hcv with h | h
      · exact h ▸ hbs
      · exact h.1
    obtain ⟨n, hn, hdec⟩ := toward_end m hw hbe c hbc hcne
    obtain ⟨v, hv, hvle⟩ := hNB c hcv n hn
    have h1 := (getNeighbors_sound hn).1
    have htr2 := mdist_triangle m.startPos n m.endPos
    have hlb := hI.gLB n v hv
    have htr1 := mdist_triangle m.startPos c n
    have hvn : v = mdist m.startPos n := by omega
    have hoptn : mdist m.startPos n + mdist n m.endPos =
        mdist m.startPos m.endPos := by omega
    rcases hI.gOV n (by simp [hv]) with hno | hnv
    · exact ⟨n, hno, by rw [hv, hvn], hoptn⟩
    · exact ih n (by omega) hnv hoptn

/-- On a wall-free grid, expanding an exactly-scored, on-route current
cell preserves the empty-grid invariant. -/
theorem expand_einv (m : Model) {s : AState} {cur : Pos} {idx : ℕ}
    (hw : m.walls = ∅) (hbs : inB m m.startPos) (hbe : inB m m.endPos)
    (hI : Inv m s) (hE : EInv m s)
    (hget : s.openSet[idx]? = some cur)
    (hgcur : mapGet s.gScore cur = some (mdist m.startPos cur))
    (hoptcur : mdist m.startPos cur + mdist cur m.endPos =
      mdist m.startPos m.endPos)
    (hne : cur ≠ m.endPos) :
    EInv m (expand m cur idx s) := by
  have hI' : Inv m (expand m cur idx s) := expand_inv hI hget hne
  have hvis : (expand m cur idx s).visited = addVisited s.visited cur :=
    fold_visited_eq m cur (getNeighbors m cur) (spliceState s idx cur)
  have hgsplice : mapGet (spliceState s idx cur).gScore cur =
      some (mdist m.startPos cur) := hgcur
  have hcurstab : mapGet (expand m cur idx s).gScore cur =
      mapGet s.gScore cur :=
    fold_g_stable (getNeighbors m cur) (spliceState s idx cur) cur
      (fun n hn => (neighbor_ne_self hn).symm)
  have hvisExact : ∀ c ∈ (expand m cur idx s).visited,
      mapGet (expand m cur idx s).gScore c = some (mdist m.startPos c) := by
    intro c hc
    rw [hvis] at hc
    rcases (mem_addVisited_iff _ _ _).mp hc with h | h
    · obtain ⟨v', hle, hv'⟩ := fold_g_le m cur
        (getNeighbors m cur) (spliceState s idx cur) c _ (hE.visExact c h)
      have hlb := hI'.gLB c v' hv'
      have hv'eq : v' = mdist m.startPos c := by omega
      rw [← hv'eq]
      exact hv'
    · subst c
      rw [hcurstab, hgcur]
  have hvisNB : ∀ c ∈ (expand m cur idx s).visited,
      ∀ n ∈ getNeighbors m c, ∃ v,
        mapGet (expand m cur idx s).gScore n = some v ∧
        v ≤ mdist m.startPos c + 1 := by
    intro c hc n hn
    rw [hvis] at hc
    rcases (mem_addVisited_iff _ _ _).mp hc with h | h
    · obtain ⟨v, hv, hvle⟩ := hE.visNB c h n hn
      obtain ⟨v', hle, hv'⟩ := fold_g_le m cur
        (getNeighbors m cur) (spliceState s idx cur) n v hv
      exact ⟨v', hv', by omega⟩
    · subst c
      obtain ⟨v, hvle, hv⟩ := fold_neighbor_le m cur
        (getNeighbors m cur) (spliceState s idx cur) (mdist m.startPos cur)
        hgsplice (fun q hq => hq) n hn
      exact ⟨v, hv, hvle⟩
  have hwitness : ∃ w, w ∈ (expand m cur idx s).openSet ∧
      mapGet (expand m cur idx s).gScore w = some (mdist m.startPos w) ∧
      mdist m.startPos w + mdist w m.endPos = mdist m.startPos m.endPos := by
    obtain ⟨w, hwo, hwg, hwopt⟩ := hE.ewitness
    by_cases hwc : w = cur
    · have hcv : cur ∈ (expand m cur idx s).visited := by
        rw [hvis]
        exact (mem_addVisited_iff _ _ _).mpr (Or.inr rfl)
      exact ewalk m (expand m cur idx s) hw hbs hbe hI' hvisNB
        (mdist cur m.endPos) cur (le_refl _) hcv (hwc ▸ hoptcur)
    · have hwe : w ∈ (spliceState s idx cur).openSet := by
        dsimp only [spliceState]
        apply mem_eraseIdx_of_ne s.openSet idx w hwo
        rw [hget]
        intro hcontra
        exact hwc (Option.some_inj.mp hcontra).symm
      have hwo' : w ∈ (expand m cur idx s).openSet :=
        fold_open_mono m cur (getNeighbors m cur)
          (spliceState s idx cur) w hwe
      obtain ⟨v', hle, hv'⟩ := fold_g_le m cur
        (getNeighbors m cur) (spliceState s idx cur) w _ hwg
      have hlb := hI'.gLB w v' hv'
      have hv'eq : v' = mdist m.startPos w := by omega
      exact ⟨w, hwo', by rw [← hv'eq]; exact hv', hwopt⟩
  exact ⟨hvisExact, hvisNB, hwitness⟩

theorem initState_einv (m : Model) : EInv m (initState m) := by
  refine ⟨?_, ?_, ⟨m.startPos, ?_, ?_, ?_⟩⟩
  · intro c hc; cases hc
  · intro c hc n hn; cases hc
  · simp [initState]
  · rw [mdist_eq_zero_iff.mpr rfl]
    simp [initState, mapGet]
  · rw [mdist_eq_zero_iff.mpr rfl]
    omega

/-- On a wall-free grid the loop, once it completes, always reports a
path, reconstructed from an end cell whose gScore is the exact Manhattan
distance from start. -/
theorem loopE_found (m : Model) (hw : m.walls = ∅) (hbs : inB m m.startPos)
    (hbe : inB m m.endPos) :
    ∀ (fuel : ℕ) (s : AState) (r : Option (List Pos) × List Pos),
      Inv m s → EInv m s → loopFuel m fuel s = some r →
      ∃ p s', r.1 = some p ∧ Inv m s' ∧
        p = reconPath s'.cameFrom (s'.cameFrom.length + 1) m.endPos ∧
        mapGet s'.gScore m.endPos = some (mdist m.startPos m.endPos) := by
  intro fuel
  induction fuel with
  | zero => intro s r _ _ h; cases h
  | succ fuel ih =>
    intro s r hI hE h
    rw [loopFuel_succ] at h
    cases ho : s.openSet with
    | nil =>
      obtain ⟨w, hwo, -, -⟩ := hE.ewitness
      rw [ho] at hwo
      cases hwo
    | cons a rest =>
      rw [ho] at h
      dsimp only at h
      obtain ⟨hgsel, hoptsel⟩ := sel_exact m s a rest hI ho hE.ewitness
      by_cases hend : (selGo s.fScore a 0 1 rest).1 = m.endPos
      · rw [if_pos hend] at h
        have hr := Option.some_inj.mp h
        refine ⟨reconPath s.cameFrom (s.cameFrom.length + 1) m.endPos, s,
          ?_, hI, rfl, ?_⟩
        · rw [← hr, ← hend]
        · rw [hend] at hgsel
          exact hgsel
      · rw [if_neg hend] at h
        have hget : s.openSet[(selGo s.fScore a 0 1 rest).2]? =
            some (selGo s.fScore a 0 1 rest).1 := by
          rw [ho]; exact sel_get _ _ _
        exact ih _ r (expand_inv hI hget hend)
          (expand_einv m hw hbs hbe hI hE hget hgsel hoptsel hend) h

/-- Reconstruction length bounds: along `cameFrom` links the gScore
drops by at least one per step and each step is an adjacency, so the
chain from a cell scored `v` has between `mdist start temp` and `v`
cells, and `v` also bounds the recursion depth. -/
theorem recon_bounds (m : Model) {s : AState} (hI : Inv m s) :
    ∀ (v : ℕ) (temp : Pos) (fuel : ℕ), mapGet s.gScore temp = some v →
      v < fuel →
      mdist m.startPos temp ≤ (reconPath s.cameFrom fuel temp).length ∧
      (reconPath s.cameFrom fuel temp).length ≤ v := by
  intro v
  induction v using Nat.strong_induction_on with
  | _ v ih =>
    intro temp fuel hg hvf
    obtain ⟨f, rfl⟩ : ∃ f, fuel = f + 1 := ⟨fuel - 1, by omega⟩
    unfold reconPath
    cases hcf : mapGet s.cameFrom temp with
    | none =>
      have htemp : temp = m.startPos := by
        by_contra hne
        have := hI.cfAll temp (by simp [hg]) hne
        rw [hcf] at this
        cases this
      subst htemp
      rw [mdist_eq_zero_iff.mpr rfl]
      simp
    | some c =>
      obtain ⟨vn, vc, hvn, hvc, hle⟩ := hI.cfG temp c hcf
      have hvv : vn = v := by
        rw [hg] at hvn
        exact (Option.some_inj.mp hvn).symm
      have hcvlt : vc < v := by omega
      have hcff : vc < f := by omega
      obtain ⟨hlow, hhigh⟩ := ih vc hcvlt c f hvc hcff
      have hadj : mdist c temp = 1 :=
        (getNeighbors_sound (hI.cfKey temp c hcf)).1
      have htr := mdist_triangle m.startPos c temp
      simp only [List.length_append, List.length_singleton]
      constructor <;> omega

/-- C2: on a wall-free grid with in-bounds start and end, the search
finds a path whose edge count (the length of the returned list, which
represents the route start::path) equals the Manhattan distance from
start to end. -/
theorem claim_c2_manhattan (m : Model) (hw : m.walls = ∅)
    (hbs : inB m m.startPos) (hbe : inB m m.endPos) :
    ∃ p, (findPath m).1 = some p ∧
      p.length = mdist m.startPos m.endPos ∧
      (m.startPos :: p).length = mdist m.startPos m.endPos + 1 := by
  obtain ⟨r, hr, hfp⟩ := findPath_complete m
  obtain ⟨p, s', hr1, hI', hrec, hgend⟩ :=
    loopE_found m hw hbs hbe (fuelBound m) (initState m) r
      (initState_inv m) (initState_einv m) hr
  have hD : mdist m.startPos m.endPos < s'.cameFrom.length + 1 := by
    have h1 := hI'.gBound m.endPos _ hgend
    have h2 := hI'.lenCF
    omega
  obtain ⟨hlow, hhigh⟩ := recon_bounds m hI' (mdist m.startPos m.endPos)
    m.endPos (s'.cameFrom.length + 1) hgend hD
  have hlen : p.length = mdist m.startPos m.endPos := by
    rw [hrec]
    omega
  exact ⟨p, by rw [hfp]; exact hr1, hlen, by simp [hlen]⟩

/-- An empty 3×3 grid from corner to corner. -/
def mc2 : Model :=
  { rows := 3, cols := 3, walls := ∅, startPos := (0, 0), endPos := (2, 2) }

/-- C2 witness: the spec's corner-to-corner scenario, path length 4. -/
theorem claim_c2_witness :
    (mc2.walls = ∅ ∧ inB mc2 mc2.startPos ∧ inB mc2 mc2.endPos) ∧
    ∃ p, (findPath mc2).1 = some p ∧
      p.length = mdist mc2.startPos mc2.endPos ∧
      (mc2.startPos :: p).length = mdist mc2.startPos mc2.endPos + 1 :=
  ⟨⟨rfl, by decide, by decide⟩,
   claim_c2_manhattan mc2 rfl (by decide) (by decide)⟩

end Pathfinding
